import Mathlib

/-!
# Scan processor: message handling and latest-wins persistence

A shallow embedding of the Go packages `pkg/storage`, `pkg/storage/postgres` and
`pkg/processing`, followed by theorems about them.

Conventions of the embedding:

* a Go `string` or `[]byte` is the list of its bytes (`Bytes`), each byte a natural number;
* a Go `error` is `Option String` (`none` is the nil error), and a Go result pair
  `(T, error)` is `Except String T`;
* a `time.Time` is modelled by its Unix second count: every instant this program builds is a
  whole number of seconds (`time.Unix(sec, 0)` in `HandleMessage`, `Truncate(time.Second)` in
  the repository test);
* the `scans` table is a function from primary key to the rest of the row, and holds what
  the driver sent: the port as an int4, the instant as the `int64` count of microseconds
  since 2000-01-01 that pgx computes, refused by the server outside the range of
  `timestamptz`;
* `json.Unmarshal` is modelled on the bytes of its input, in two passes as in the Go decoder:
  a scanner that checks the syntax and builds the value (`json.scan`), then the store of an
  object into the fields of the target struct, by the type of each field;
* the collaborators of `HandleMessage` are functions giving the error of each call, and the
  calls made are returned as a list; logging is left out.
-/

/-- A Go byte slice or string: the list of its bytes. -/
abbrev Bytes := List Nat

/-- The bytes of an ASCII string literal. -/
def ascii (s : String) : Bytes := s.toList.map Char.toNat

namespace time

/-- A `time.Time`, by its Unix second count. -/
structure Time where
  unix : Int
deriving DecidableEq, Repr

/-- Go `time.Unix(sec, 0)`. -/
def Unix (sec : Int) : Time := ⟨sec⟩

/-- Go `Time.UTC`: the same instant, with the location set to UTC. -/
def Time.UTC (t : Time) : Time := t

end time

namespace storage

/-- The struct `storage.ScanRecord`. -/
structure ScanRecord where
  IP : Bytes
  Port : Nat
  Service : Bytes
  Timestamp : time.Time
  Response : Bytes
deriving DecidableEq, Repr

end storage

namespace postgres

open storage

/-- The result of an `int64` computation: the integer wrapped into the range of 64-bit two's
complement. -/
def wrapInt64 (x : Int) : Int :=
  (x + 9223372036854775808) % 18446744073709551616 - 9223372036854775808

/-- The constant `microsecFromUnixEpochToY2K` of the timestamp codec of pgx. -/
def microsecFromUnixEpochToY2K : Int := 946684800000000

/-- What pgx sends for a `time.Time` bound to a `timestamptz` parameter: the microseconds
since 2000-01-01, computed in `int64` as
`t.Unix()*1000000 + t.Nanosecond()/1000 - microsecFromUnixEpochToY2K` (the nanosecond part is
zero for a whole-second instant). The arithmetic wraps silently. -/
def encodeTimestamptz (t : time.Time) : Int :=
  wrapInt64 (wrapInt64 (wrapInt64 t.unix * 1000000) - microsecFromUnixEpochToY2K)

/-- The smallest `timestamptz` the server holds (`MIN_TIMESTAMP`, 4713 BC), in microseconds
since 2000-01-01. -/
def MIN_TIMESTAMP : Int := -211813488000000000

/-- The end of the range of `timestamptz` (`END_TIMESTAMP`, the start of 294277 AD), in
microseconds since 2000-01-01. -/
def END_TIMESTAMP : Int := 9223371331200000000

/-- Does the server accept a received `timestamptz` value: one within the range of the type,
or one of the two infinities (the extreme values of `int64`); any other value is refused with
"timestamp out of range". -/
def timestamptzAccepted (v : Int) : Bool :=
  decide (MIN_TIMESTAMP ≤ v ∧ v < END_TIMESTAMP) || v == 9223372036854775807
    || v == -9223372036854775808

/-- What pgx sends for a Go `int` bound to an `INTEGER` (int4) parameter; `none` when the
value is outside the range of int4, which pgx reports as an encoding error. -/
def encodeInt4 (n : Int) : Option Int :=
  if n < -2147483648 ∨ n > 2147483647 then none else some n

/-- Primary key of the `scans` table: (ip, port, service). -/
abbrev Key := Bytes × Int × Bytes

/-- The non-key columns of a row of `scans`: (last_scanned, response); `last_scanned` is the
value the column holds, microseconds since 2000-01-01. -/
abbrev Row := Int × Bytes

/-- The `scans` table: at most one row for each primary key. -/
abbrev Table := Key → Option Row

/-- The table after `TRUNCATE scans`. -/
def emptyTable : Table := fun _ => none

/-- The statement of `UpsertLatest`, run on a table with the five parameter values the server
received: `INSERT ... VALUES ($1..$5) ON CONFLICT (ip, port, service) DO UPDATE SET
last_scanned, response = EXCLUDED... WHERE EXCLUDED.last_scanned >= scans.last_scanned`. With
no row for the key the row is inserted; with one, it is overwritten exactly when the new
`last_scanned` is greater than or equal to the stored one. -/
def upsertQuery (t : Table) (ip : Bytes) (port : Int) (service : Bytes)
    (last_scanned : Int) (response : Bytes) : Table :=
  fun k =>
    if k = (ip, port, service) then
      match t k with
      | none => some (last_scanned, response)
      | some (stored, old) =>
        if last_scanned ≥ stored then some (last_scanned, response)
        else some (stored, old)
    else t k

/-- The method `Repository.UpsertLatest`: the table afterwards and the error returned.
`pool.Exec` encodes the arguments, and fails there for a port outside int4 (the column is
`port INTEGER`); it sends the statement, and `execErr` is the failure the pool or the server
reports for a reason outside this model (`none` when there is none); the server refuses a
`last_scanned` outside the range of `timestamptz`. In each of these cases the table is as
before and the error is wrapped; otherwise the statement runs on the values sent. -/
def Repository.UpsertLatest (execErr : Option String) (t : Table) (record : ScanRecord) :
    Table × Option String :=
  match encodeInt4 (Int.ofNat record.Port) with
  | none => (t, some "upsert scan: failed to encode args[1]: value out of range for int4")
  | some port =>
    match execErr with
    | some err => (t, some ("upsert scan: " ++ err))
    | none =>
      if timestamptzAccepted (encodeTimestamptz record.Timestamp.UTC) then
        (upsertQuery t record.IP port record.Service
          (encodeTimestamptz record.Timestamp.UTC) record.Response, none)
      else (t, some "upsert scan: ERROR: timestamp out of range")

/-- The table after an `UpsertLatest` for which the pool reports no failure of its own. -/
def applyUpsert (t : Table) (record : ScanRecord) : Table :=
  (Repository.UpsertLatest none t record).1

/-- The primary key a record is written under. -/
def keyOf (record : ScanRecord) : Key := (record.IP, Int.ofNat record.Port, record.Service)

/-- Does the model of `UpsertLatest` run the statement for this record when the pool reports
no failure: the port fits int4 and the server accepts the instant sent. -/
def accepted (record : ScanRecord) : Bool :=
  decide (Int.ofNat record.Port ≤ 2147483647) &&
    timestamptzAccepted (encodeTimestamptz record.Timestamp)

end postgres

namespace utf8

/-- Go `utf8.RuneError`, U+FFFD. -/
def RuneError : Nat := 0xFFFD

/-- Go `utf8.EncodeRune`: the UTF-8 bytes of a rune; a surrogate or a value above U+10FFFF is
encoded as U+FFFD. -/
def EncodeRune (r : Nat) : Bytes :=
  if r ≤ 0x7F then [r]
  else if r ≤ 0x7FF then [0xC0 + r / 64, 0x80 + r % 64]
  else if r > 0x10FFFF ∨ (0xD800 ≤ r ∧ r ≤ 0xDFFF) then [0xEF, 0xBF, 0xBD]
  else if r ≤ 0xFFFF then [0xE0 + r / 4096, 0x80 + r / 64 % 64, 0x80 + r % 64]
  else [0xF0 + r / 262144, 0x80 + r / 4096 % 64, 0x80 + r / 64 % 64, 0x80 + r % 64]

/-- What the table `first` of Go package utf8 says about a leading byte. -/
inductive Lead where
  | ascii
  | invalid
  | multi (size lo hi : Nat)
deriving DecidableEq, Repr

/-- The table `first` with `acceptRanges`: sequence length and the accepted range of the
second byte. -/
def first (p0 : Nat) : Lead :=
  if p0 < 0x80 then .ascii
  else if p0 < 0xC2 then .invalid
  else if p0 ≤ 0xDF then .multi 2 0x80 0xBF
  else if p0 = 0xE0 then .multi 3 0xA0 0xBF
  else if p0 ≤ 0xEC then .multi 3 0x80 0xBF
  else if p0 = 0xED then .multi 3 0x80 0x9F
  else if p0 ≤ 0xEF then .multi 3 0x80 0xBF
  else if p0 = 0xF0 then .multi 4 0x90 0xBF
  else if p0 ≤ 0xF3 then .multi 4 0x80 0xBF
  else if p0 = 0xF4 then .multi 4 0x80 0x8F
  else .invalid

/-- Go `utf8.DecodeRune`: the first rune of `p` and its width in bytes; (RuneError, 1) for an
ill-formed sequence, (RuneError, 0) for empty input. The masks and shifts of the Go code are
written with `%` and `*`. -/
def DecodeRune (p : Bytes) : Nat × Nat :=
  match p with
  | [] => (RuneError, 0)
  | p0 :: _ =>
    match first p0 with
    | .ascii => (p0, 1)
    | .invalid => (RuneError, 1)
    | .multi sz lo hi =>
      if p.length < sz then (RuneError, 1) else
      let b1 := p.getD 1 0
      if b1 < lo ∨ hi < b1 then (RuneError, 1) else
      if sz ≤ 2 then (p0 % 32 * 64 + b1 % 64, 2) else
      let b2 := p.getD 2 0
      if b2 < 0x80 ∨ 0xBF < b2 then (RuneError, 1) else
      if sz ≤ 3 then (p0 % 16 * 4096 + b1 % 64 * 64 + b2 % 64, 3) else
      let b3 := p.getD 3 0
      if b3 < 0x80 ∨ 0xBF < b3 then (RuneError, 1) else
      (p0 % 8 * 262144 + b1 % 64 * 4096 + b2 % 64 * 64 + b3 % 64, 4)

end utf8

namespace utf16

/-- Go `utf16.IsSurrogate`. -/
def IsSurrogate (r : Nat) : Bool := 0xD800 ≤ r && r < 0xE000

/-- Go `utf16.DecodeRune`, the second argument being `none` where the Go caller passes -1:
the rune of a valid surrogate pair, U+FFFD otherwise. -/
def DecodeRune (r1 : Nat) (r2 : Option Nat) : Nat :=
  match r2 with
  | some r2 =>
    if 0xD800 ≤ r1 ∧ r1 < 0xDC00 ∧ 0xDC00 ≤ r2 ∧ r2 < 0xE000 then
      (r1 - 0xD800) * 1024 + (r2 - 0xDC00) + 0x10000
    else 0xFFFD
  | none => 0xFFFD

end utf16

namespace base64

/-- The alphabet of `base64.StdEncoding`: the character of a 6-bit value. -/
def encodeStd (v : Nat) : Nat :=
  if v < 26 then 0x41 + v
  else if v < 52 then 0x61 + (v - 26)
  else if v < 62 then 0x30 + (v - 52)
  else if v = 62 then 0x2B
  else 0x2F

/-- The `decodeMap` of `base64.StdEncoding`: the 6-bit value of a character of the alphabet,
`none` where the Go table holds 0xff. -/
def decodeMap (c : Nat) : Option Nat :=
  if 0x41 ≤ c ∧ c ≤ 0x5A then some (c - 0x41)
  else if 0x61 ≤ c ∧ c ≤ 0x7A then some (c - 0x61 + 26)
  else if 0x30 ≤ c ∧ c ≤ 0x39 then some (c - 0x30 + 52)
  else if c = 0x2B then some 62
  else if c = 0x2F then some 63
  else none

/-- Go `base64.StdEncoding.Encode` (with `=` padding). -/
def Encode : Bytes → Bytes
  | [] => []
  | [a] =>
    let val := a * 65536
    [encodeStd (val / 262144 % 64), encodeStd (val / 4096 % 64), 0x3D, 0x3D]
  | [a, b] =>
    let val := a * 65536 + b * 256
    [encodeStd (val / 262144 % 64), encodeStd (val / 4096 % 64), encodeStd (val / 64 % 64), 0x3D]
  | a :: b :: c :: rest =>
    let val := a * 65536 + b * 256 + c
    encodeStd (val / 262144 % 64) :: encodeStd (val / 4096 % 64) :: encodeStd (val / 64 % 64)
      :: encodeStd (val % 64) :: Encode rest

/-- Skip the carriage returns and line feeds the decoder ignores. -/
def skipNewlines : Bytes → Bytes
  | [] => []
  | c :: cs => if c = 0x0A ∨ c = 0x0D then skipNewlines cs else c :: cs

/-- The bytes `decodeQuantum` writes for the 6-bit values it has collected (2, 3 or 4 of
them). -/
def quantumBytes (dbuf : List Nat) : Bytes :=
  let val := dbuf.getD 0 0 * 262144 + dbuf.getD 1 0 * 4096 + dbuf.getD 2 0 * 64 + dbuf.getD 3 0
  ([val / 65536 % 256, val / 256 % 256, val % 256]).take (dbuf.length - 1)

/-- Go `base64.StdEncoding.Decode`, as the repeated `decodeQuantum`: `dbuf` holds the 6-bit
values of the quantum being read. Carriage returns and line feeds are skipped; padding is
accepted only where it completes the last quantum; `none` is a `CorruptInputError`. -/
def decodeFrom : Bytes → List Nat → Option Bytes
  | [], dbuf => if dbuf.length = 0 then some [] else none
  | c :: cs, dbuf =>
    match decodeMap c with
    | some v =>
      if dbuf.length = 3 then (quantumBytes (dbuf ++ [v]) ++ ·) <$> decodeFrom cs []
      else decodeFrom cs (dbuf ++ [v])
    | none =>
      if c = 0x0A ∨ c = 0x0D then decodeFrom cs dbuf
      else if c ≠ 0x3D then none
      else if dbuf.length < 2 then none
      else if dbuf.length = 2 then
        match skipNewlines cs with
        | [] => none
        | p :: cs2 =>
          if p ≠ 0x3D then none
          else if skipNewlines cs2 ≠ [] then none
          else some (quantumBytes dbuf)
      else
        if skipNewlines cs ≠ [] then none else some (quantumBytes dbuf)

/-- Go `base64.StdEncoding.Decode` on a whole input. -/
def Decode (src : Bytes) : Option Bytes := decodeFrom src []

end base64

namespace strconv

/-- Is the byte an ASCII decimal digit. -/
def isDigit (c : Nat) : Bool := 0x30 ≤ c && c ≤ 0x39

/-- The value of a run of decimal digits, most significant first. -/
def digitsValue (ds : Bytes) : Nat := ds.foldl (fun acc c => acc * 10 + (c - 0x30)) 0

/-- Go `strconv.ParseUint(s, 10, 64)`: a non-empty run of decimal digits whose value fits in
64 bits. -/
def ParseUint (s : Bytes) : Option Nat :=
  if s = [] then none
  else if s.all isDigit then
    if digitsValue s < 2 ^ 64 then some (digitsValue s) else none
  else none

/-- Go `strconv.ParseInt(s, 10, 64)`: an optional sign, then as `ParseUint`, within the range
of int64. -/
def ParseInt (s : Bytes) : Option Int :=
  match s with
  | [] => none
  | c :: cs =>
    let neg := c = 0x2D
    let body := if c = 0x2B ∨ c = 0x2D then cs else s
    match ParseUint body with
    | none => none
    | some un =>
      if neg then (if un ≤ 2 ^ 63 then some (-(un : Int)) else none)
      else (if un < 2 ^ 63 then some (un : Int) else none)

/-- Go `strconv.Itoa`. -/
def Itoa (i : Int) : Bytes :=
  if i < 0 then 0x2D :: (Nat.toDigits 10 i.natAbs).map Char.toNat
  else (Nat.toDigits 10 i.toNat).map Char.toNat

end strconv

namespace json

/-- A JSON value as the decoder sees it: a number by its literal text, a string and an object
key by their unquoted bytes, and each object member with the raw text of its value (what a
`json.RawMessage` field receives). -/
inductive Value where
  | null
  | bool (b : Bool)
  | number (lit : Bytes)
  | string (s : Bytes)
  | array (elems : List Value)
  | object (members : List (Bytes × Bytes × Value))

/-- The nesting limit of the Go scanner (`maxNestingDepth`). -/
def maxNestingDepth : Nat := 10000

/-- Go `isSpace` of the scanner: space, tab, carriage return, line feed. -/
def isSpace (c : Nat) : Bool := c = 0x20 || c = 0x09 || c = 0x0D || c = 0x0A

/-- Drop leading JSON white space. -/
def skipSpace : Bytes → Bytes
  | [] => []
  | c :: cs => if isSpace c then skipSpace cs else c :: cs

/-- Is the byte a hexadecimal digit. -/
def isHex (c : Nat) : Bool :=
  (0x30 ≤ c && c ≤ 0x39) || (0x61 ≤ c && c ≤ 0x66) || (0x41 ≤ c && c ≤ 0x46)

/-- The value of a hexadecimal digit, as in `getu4`. -/
def hexValue (c : Nat) : Option Nat :=
  if 0x30 ≤ c ∧ c ≤ 0x39 then some (c - 0x30)
  else if 0x61 ≤ c ∧ c ≤ 0x66 then some (c - 0x61 + 10)
  else if 0x41 ≤ c ∧ c ≤ 0x46 then some (c - 0x41 + 10)
  else none

/-- Go `getu4`: the code unit of a leading `\uXXXX`, `none` where Go returns -1. -/
def getu4 (s : Bytes) : Option Nat :=
  match s with
  | b :: u :: h1 :: h2 :: h3 :: h4 :: _ =>
    if b = 0x5C ∧ u = 0x75 then
      match hexValue h1, hexValue h2, hexValue h3, hexValue h4 with
      | some a, some b, some c, some d => some (((a * 16 + b) * 16 + c) * 16 + d)
      | _, _, _, _ => none
    else none
  | _ => none

/-- The byte a one-letter escape stands for, in `unquoteBytes`. -/
def escapeByte (e : Nat) : Option Nat :=
  if e = 0x22 ∨ e = 0x5C ∨ e = 0x2F ∨ e = 0x27 then some e
  else if e = 0x62 then some 0x08
  else if e = 0x66 then some 0x0C
  else if e = 0x6E then some 0x0A
  else if e = 0x72 then some 0x0D
  else if e = 0x74 then some 0x09
  else none

/-- The loop of Go `unquoteBytes` over the text between the quotes of a string literal:
escapes are replaced, ill-formed UTF-8 and lone surrogates become U+FFFD. The first argument
bounds the number of steps; each step consumes at least one byte. -/
def unquoteLoop : Nat → Bytes → Option Bytes
  | 0, s => if s = [] then some [] else none
  | fuel + 1, s =>
    match s with
    | [] => some []
    | c :: cs =>
      if c = 0x5C then
        match cs with
        | [] => none
        | e :: cs1 =>
          if e = 0x75 then
            match getu4 s with
            | none => none
            | some rr =>
              if utf16.IsSurrogate rr then
                let dec := utf16.DecodeRune rr (getu4 (s.drop 6))
                if dec ≠ 0xFFFD then
                  (utf8.EncodeRune dec ++ ·) <$> unquoteLoop fuel (s.drop 12)
                else (utf8.EncodeRune 0xFFFD ++ ·) <$> unquoteLoop fuel (s.drop 6)
              else (utf8.EncodeRune rr ++ ·) <$> unquoteLoop fuel (s.drop 6)
          else
            match escapeByte e with
            | some b => (b :: ·) <$> unquoteLoop fuel cs1
            | none => none
      else if c = 0x22 ∨ c < 0x20 then none
      else if c < 0x80 then (c :: ·) <$> unquoteLoop fuel cs
      else
        (utf8.EncodeRune (utf8.DecodeRune s).1 ++ ·)
          <$> unquoteLoop fuel (s.drop (utf8.DecodeRune s).2)

/-- Go `unquoteBytes`, on the text between the quotes. -/
def unquote (s : Bytes) : Option Bytes := unquoteLoop s.length s

/-- The scanner inside a string literal, after the opening quote: the text up to the closing
quote and the input after it. A control byte, an unknown escape or a `\u` without four
hexadecimal digits is a syntax error. -/
def scanString : Bytes → Option (Bytes × Bytes)
  | [] => none
  | c :: cs =>
    if c = 0x22 then some ([], cs)
    else if c = 0x5C then
      match cs with
      | [] => none
      | e :: cs1 =>
        if e = 0x75 then
          match cs1 with
          | h1 :: h2 :: h3 :: h4 :: cs2 =>
            if isHex h1 && isHex h2 && isHex h3 && isHex h4 then
              match scanString cs2 with
              | some (raw, rest) => some (c :: e :: h1 :: h2 :: h3 :: h4 :: raw, rest)
              | none => none
            else none
          | _ => none
        else if e = 0x62 ∨ e = 0x66 ∨ e = 0x6E ∨ e = 0x72 ∨ e = 0x74 ∨ e = 0x5C ∨ e = 0x2F
            ∨ e = 0x22 then
          match scanString cs1 with
          | some (raw, rest) => some (c :: e :: raw, rest)
          | none => none
        else none
    else if c < 0x20 then none
    else
      match scanString cs with
      | some (raw, rest) => some (c :: raw, rest)
      | none => none

/-- Drop leading decimal digits. -/
def skipDigits : Bytes → Bytes
  | [] => []
  | c :: cs => if strconv.isDigit c then skipDigits cs else c :: cs

/-- The integer part of a number: `0`, or a non-zero digit and more digits. -/
def scanInt (s : Bytes) : Option Bytes :=
  match s with
  | [] => none
  | d :: t =>
    if d = 0x30 then some t
    else if 0x31 ≤ d ∧ d ≤ 0x39 then some (skipDigits t)
    else none

/-- The optional fraction of a number: `.` and at least one digit. -/
def scanFrac (s : Bytes) : Option Bytes :=
  match s with
  | [] => some s
  | c :: t =>
    if c = 0x2E then
      match t with
      | [] => none
      | d :: t1 => if strconv.isDigit d then some (skipDigits t1) else none
    else some s

/-- The digits of an exponent, after `e` and the optional sign: at least one. -/
def scanExpDigits (s : Bytes) : Option Bytes :=
  match s with
  | [] => none
  | d :: t => if strconv.isDigit d then some (skipDigits t) else none

/-- The optional exponent of a number. -/
def scanExp (s : Bytes) : Option Bytes :=
  match s with
  | [] => some s
  | c :: t =>
    if c = 0x65 ∨ c = 0x45 then
      match t with
      | [] => none
      | g :: t1 => if g = 0x2B ∨ g = 0x2D then scanExpDigits t1 else scanExpDigits t
    else some s

/-- The scanner over a number literal: the input after it. -/
def scanNumber (s : Bytes) : Option Bytes :=
  let body := match s with
    | [] => s
    | c :: t => if c = 0x2D then t else s
  match scanInt body with
  | none => none
  | some s1 =>
    match scanFrac s1 with
    | none => none
    | some s2 => scanExp s2

/-- The input after the given word, when the input starts with it. -/
def stripWord (word s : Bytes) : Option Bytes :=
  if s.take word.length = word then some (s.drop word.length) else none

mutual

/-- The scanner and decoder over one JSON value at the head of the input, with the number of
enclosing arrays and objects: the value and the input after it, `none` for a syntax error.
The first argument bounds the chain of nested calls. -/
def scanValue : Nat → Nat → Bytes → Option (Value × Bytes)
  | 0, _, _ => none
  | fuel + 1, depth, s =>
    match s with
    | [] => none
    | c :: cs =>
      if c = 0x22 then
        match scanString cs with
        | none => none
        | some (raw, rest) =>
          match unquote raw with
          | none => none
          | some str => some (.string str, rest)
      else if c = 0x7B then
        if depth + 1 > maxNestingDepth then none
        else
          match skipSpace cs with
          | [] => none
          | d :: rest =>
            if d = 0x7D then some (.object [], rest)
            else
              match scanMembers fuel (depth + 1) (d :: rest) with
              | none => none
              | some (ms, rest1) => some (.object ms, rest1)
      else if c = 0x5B then
        if depth + 1 > maxNestingDepth then none
        else
          match skipSpace cs with
          | [] => none
          | d :: rest =>
            if d = 0x5D then some (.array [], rest)
            else
              match scanElems fuel (depth + 1) (d :: rest) with
              | none => none
              | some (vs, rest1) => some (.array vs, rest1)
      else if c = 0x74 then (fun rest => (.bool true, rest)) <$> stripWord (ascii "true") s
      else if c = 0x66 then (fun rest => (.bool false, rest)) <$> stripWord (ascii "false") s
      else if c = 0x6E then (fun rest => (.null, rest)) <$> stripWord (ascii "null") s
      else if c = 0x2D ∨ strconv.isDigit c then
        (fun rest => (.number (s.take (s.length - rest.length)), rest)) <$> scanNumber s
      else none

/-- The elements of an array from the first one on, up to the closing bracket. -/
def scanElems : Nat → Nat → Bytes → Option (List Value × Bytes)
  | 0, _, _ => none
  | fuel + 1, depth, s =>
    match scanValue fuel depth s with
    | none => none
    | some (v, s1) =>
      match skipSpace s1 with
      | [] => none
      | d :: rest =>
        if d = 0x2C then
          match scanElems fuel depth (skipSpace rest) with
          | none => none
          | some (vs, rest1) => some (v :: vs, rest1)
        else if d = 0x5D then some ([v], rest)
        else none

/-- The members of an object from the first key on, up to the closing brace. -/
def scanMembers : Nat → Nat → Bytes → Option (List (Bytes × Bytes × Value) × Bytes)
  | 0, _, _ => none
  | fuel + 1, depth, s =>
    match s with
    | [] => none
    | q :: s1 =>
      if q ≠ 0x22 then none
      else
        match scanString s1 with
        | none => none
        | some (rawKey, s2) =>
          match unquote rawKey with
          | none => none
          | some key =>
            match skipSpace s2 with
            | [] => none
            | colon :: s3 =>
              if colon ≠ 0x3A then none
              else
                match scanValue fuel depth (skipSpace s3) with
                | none => none
                | some (v, s5) =>
                  let raw := (skipSpace s3).take ((skipSpace s3).length - s5.length)
                  match skipSpace s5 with
                  | [] => none
                  | d :: rest =>
                    if d = 0x2C then
                      match scanMembers fuel depth (skipSpace rest) with
                      | none => none
                      | some (ms, rest1) => some ((key, raw, v) :: ms, rest1)
                    else if d = 0x7D then some ([(key, raw, v)], rest)
                    else none

end

/-- The syntax check and scan of a whole input, as `json.Unmarshal` does before storing
anything: one value, white space around it allowed, nothing else. -/
def scan (data : Bytes) : Option Value :=
  match scanValue (2 * data.length + 2) 0 (skipSpace data) with
  | none => none
  | some (v, rest) => if skipSpace rest = [] then some v else none

/-- Go `foldRune` on the runes that matter for the field names of this program: U+017F and
U+212A are the only runes outside ASCII whose fold is an ASCII letter; any other rune outside
ASCII folds to a rune outside ASCII and is left as it is. -/
def foldRune (r : Nat) : Nat :=
  if r = 0x17F then 0x53 else if r = 0x212A then 0x4B else r

/-- The loop of Go `foldName` (`appendFoldedName`). -/
def foldLoop : Nat → Bytes → Bytes
  | 0, _ => []
  | fuel + 1, s =>
    match s with
    | [] => []
    | c :: cs =>
      if c < 0x80 then
        (if 0x61 ≤ c ∧ c ≤ 0x7A then c - 0x20 else c) :: foldLoop fuel cs
      else
        utf8.EncodeRune (foldRune (utf8.DecodeRune s).1)
          ++ foldLoop fuel (s.drop (utf8.DecodeRune s).2)

/-- Go `foldName`: the case-folded form of an object key. -/
def foldName (s : Bytes) : Bytes := foldLoop s.length s

/-- Does an object key select the struct field with this JSON name: an exact match, or else a
match of the folded names. -/
def fieldMatches (name key : Bytes) : Bool := key = name || foldName key = foldName name

/-- Store a JSON value into a Go `string` field holding `old`. -/
def storeString (v : Value) (old : Bytes) : Except String Bytes :=
  match v with
  | .string s => .ok s
  | .null => .ok old
  | _ => .error "json: cannot unmarshal into Go value of type string"

/-- Store a JSON value into an unsigned integer field of the given width holding `old`. -/
def storeUint (bits : Nat) (v : Value) (old : Nat) : Except String Nat :=
  match v with
  | .number lit =>
    match strconv.ParseUint lit with
    | some n => if n < 2 ^ bits then .ok n else .error "json: cannot unmarshal number"
    | none => .error "json: cannot unmarshal number"
  | .null => .ok old
  | _ => .error "json: cannot unmarshal into Go value of type uint"

/-- Store a JSON value into a signed 64-bit integer field holding `old` (Go `int64`, and
`int` on a 64-bit platform). -/
def storeInt64 (v : Value) (old : Int) : Except String Int :=
  match v with
  | .number lit =>
    match strconv.ParseInt lit with
    | some n => .ok n
    | none => .error "json: cannot unmarshal number"
  | .null => .ok old
  | _ => .error "json: cannot unmarshal into Go value of type int"

/-- A `[]byte` with its backing array: `mem` holds the bytes of the backing array from its
start (a byte past its end counts as zero, as in freshly allocated memory) and `len` is the
length of the slice. -/
structure ByteSlice where
  mem : Bytes
  len : Nat
deriving DecidableEq, Repr

/-- The nil slice. -/
def ByteSlice.zero : ByteSlice := ⟨[], 0⟩

/-- The bytes of the slice, which are those of the Go string `string(b)`. -/
def ByteSlice.bytes (b : ByteSlice) : Bytes := b.mem.take b.len

/-- Store the elements of a JSON array into the slots of a byte slice, one `uint8` each, `mem`
being the backing array from the slot of the first element on: a number sets its slot, a
`null` element leaves its slot as it was. -/
def storeByteElems : List Value → Bytes → Except String Bytes
  | [], _ => .ok []
  | v :: vs, mem =>
    match storeUint 8 v (mem.headD 0) with
    | .error e => .error e
    | .ok b =>
      match storeByteElems vs mem.tail with
      | .error e => .error e
      | .ok bs => .ok (b :: bs)

/-- Store a JSON value into a `[]byte` field holding `old`: a string is decoded as standard
base64 into a new slice, `null` gives the nil slice, an array without elements a new empty
slice; an array with elements is stored element by element into the slice the field holds,
which is grown as needed and cut to the number of elements. -/
def storeBytes (v : Value) (old : ByteSlice) : Except String ByteSlice :=
  match v with
  | .string s =>
    match base64.Decode s with
    | some b => .ok ⟨b, b.length⟩
    | none => .error "illegal base64 data"
  | .null => .ok ByteSlice.zero
  | .array [] => .ok ByteSlice.zero
  | .array elems =>
    match storeByteElems elems old.mem with
    | .error e => .error e
    | .ok bs => .ok ⟨bs ++ old.mem.drop elems.length, elems.length⟩
  | _ => .error "json: cannot unmarshal into Go value of type []uint8"

end json

namespace scanning

/-- Modelled from the spec: the constant `scanning.V1` of package `pkg/scanning`, which is not
among the sources; the spec names the rule "version 1", and the test of `ResponseString`
selects it with `data_version` 1. -/
def V1 : Int := 1

/-- Modelled from the spec: the constant `scanning.V2` of package `pkg/scanning`, which is not
among the sources; the spec names the rule "version 2", and the tests select it with
`data_version` 2. -/
def V2 : Int := 2

end scanning

namespace processing

open storage

/-- The struct `ScanMessage`; `Data` is the `json.RawMessage`. -/
structure ScanMessage where
  Ip : Bytes
  Port : Nat
  Service : Bytes
  Timestamp : Int
  DataVersion : Int
  Data : Bytes
deriving DecidableEq, Repr

/-- The zero value `ScanMessage{}`. -/
def ScanMessage.zero : ScanMessage := ⟨[], 0, [], 0, 0, []⟩

/-- One object member stored into a `ScanMessage` by `json.Unmarshal`: the member goes to the
field whose `json` tag its key matches, and is skipped when there is none. -/
def ScanMessage.setField (msg : ScanMessage) (m : Bytes × Bytes × json.Value) :
    Except String ScanMessage :=
  if json.fieldMatches (ascii "ip") m.1 then
    (fun x => { msg with Ip := x }) <$> json.storeString m.2.2 msg.Ip
  else if json.fieldMatches (ascii "port") m.1 then
    (fun x => { msg with Port := x }) <$> json.storeUint 32 m.2.2 msg.Port
  else if json.fieldMatches (ascii "service") m.1 then
    (fun x => { msg with Service := x }) <$> json.storeString m.2.2 msg.Service
  else if json.fieldMatches (ascii "timestamp") m.1 then
    (fun x => { msg with Timestamp := x }) <$> json.storeInt64 m.2.2 msg.Timestamp
  else if json.fieldMatches (ascii "data_version") m.1 then
    (fun x => { msg with DataVersion := x }) <$> json.storeInt64 m.2.2 msg.DataVersion
  else if json.fieldMatches (ascii "data") m.1 then
    .ok { msg with Data := m.2.1 }
  else .ok msg

/-- Store the members of an object one after the other; the first error ends the decoding
(Go goes on and reports that first error at the end, which callers here treat alike). -/
def storeMembers {α : Type} (setField : α → Bytes × Bytes × json.Value → Except String α) :
    α → List (Bytes × Bytes × json.Value) → Except String α
  | a, [] => .ok a
  | a, m :: ms =>
    match setField a m with
    | .error e => .error e
    | .ok a1 => storeMembers setField a1 ms

/-- Go `json.Unmarshal(data, &v)` for a struct `v` whose fields are stored by `setField`:
a syntax error is reported before anything is stored; `null` stores nothing; an object is
stored member by member; any other value is a type error. -/
def unmarshalStruct {α : Type} (setField : α → Bytes × Bytes × json.Value → Except String α)
    (data : Bytes) (init : α) : Except String α :=
  match json.scan data with
  | none => .error "invalid character or unexpected end of JSON input"
  | some .null => .ok init
  | some (.object ms) => storeMembers setField init ms
  | some _ => .error "json: cannot unmarshal into Go value of struct type"

/-- The function `ParseScanMessage`. -/
def ParseScanMessage (raw : Bytes) : Except String ScanMessage :=
  match unmarshalStruct ScanMessage.setField raw ScanMessage.zero with
  | .error err => .error ("unmarshal scan: " ++ err)
  | .ok msg =>
    if msg.Data.length = 0 then .error "missing data field"
    else .ok msg

/-- The anonymous payload struct of the version 1 rule. -/
structure PayloadV1 where
  ResponseBytesUtf8 : json.ByteSlice
deriving DecidableEq, Repr

/-- The anonymous payload struct of the version 2 rule. -/
structure PayloadV2 where
  ResponseStr : Bytes
deriving DecidableEq, Repr

/-- One object member stored into the version 1 payload. -/
def PayloadV1.setField (p : PayloadV1) (m : Bytes × Bytes × json.Value) :
    Except String PayloadV1 :=
  if json.fieldMatches (ascii "response_bytes_utf8") m.1 then
    (fun x => (⟨x⟩ : PayloadV1)) <$> json.storeBytes m.2.2 p.ResponseBytesUtf8
  else .ok p

/-- One object member stored into the version 2 payload. -/
def PayloadV2.setField (p : PayloadV2) (m : Bytes × Bytes × json.Value) :
    Except String PayloadV2 :=
  if json.fieldMatches (ascii "response_str") m.1 then
    (fun x => (⟨x⟩ : PayloadV2)) <$> json.storeString m.2.2 p.ResponseStr
  else .ok p

/-- The method `ScanMessage.ResponseString`. -/
def ScanMessage.ResponseString (s : ScanMessage) : Except String Bytes :=
  if s.DataVersion = scanning.V1 then
    match unmarshalStruct PayloadV1.setField s.Data ⟨json.ByteSlice.zero⟩ with
    | .error err => .error ("decode v1 data: " ++ err)
    | .ok payload => .ok payload.ResponseBytesUtf8.bytes
  else if s.DataVersion = scanning.V2 then
    match unmarshalStruct PayloadV2.setField s.Data ⟨[]⟩ with
    | .error err => .error ("decode v2 data: " ++ err)
    | .ok payload => .ok payload.ResponseStr
  else .error "unsupported data_version"

end processing

namespace pubsub

/-- The fields of `pubsub.Message` the program uses; `DeliveryAttempt` is the `*int`, `none`
for the nil pointer. -/
structure Message where
  ID : Bytes
  Data : Bytes
  Attributes : List (Bytes × Bytes)
  DeliveryAttempt : Option Int
deriving DecidableEq, Repr

/-- A `*pubsub.Topic`, by what `topic.Publish(ctx, m).Get(ctx)` returns as error for a
message (a timeout of the five second context is one such error). -/
abbrev Topic := Message → Option String

end pubsub

namespace processing

open storage

/-- How a Go call ends: it returns, or it panics. -/
inductive Outcome (α : Type) where
  | returned (a : α)
  | panicked (reason : String)
deriving DecidableEq, Repr

/-- The struct `PubSubDLQPublisher`; `topic` is `none` for the nil topic. -/
structure PubSubDLQPublisher where
  topic : Option pubsub.Topic

/-- The method `PubSubDLQPublisher.Publish`: how the call ends, and the messages it handed to
the topic. Building the attributes dereferences `msg.DeliveryAttempt`. -/
def PubSubDLQPublisher.Publish (p : PubSubDLQPublisher) (msg : pubsub.Message)
    (reason : Bytes) : Outcome (Option String) × List pubsub.Message :=
  match p.topic with
  | none => (.returned none, [])
  | some topic =>
    match msg.DeliveryAttempt with
    | none => (.panicked "runtime error: invalid memory address or nil pointer dereference", [])
    | some attempt =>
      let out : pubsub.Message :=
        { ID := [], Data := msg.Data,
          Attributes := [(ascii "reason", reason), (ascii "orig_msg_id", msg.ID),
            (ascii "delivery_attempt", strconv.Itoa attempt)],
          DeliveryAttempt := none }
      (.returned (topic out), [out])

/-- The interface `ScanDB`, by the error `UpsertLatest` returns for a record. -/
abbrev ScanDB := ScanRecord → Option String

/-- The interface `DLQPublisher`, by the error `Publish` returns for a message and a
reason. -/
abbrev DLQPublisher := pubsub.Message → Bytes → Option String

/-- The method `NoopDLQPublisher.Publish`. -/
def NoopDLQPublisher.Publish : DLQPublisher := fun _ _ => none

/-- A call `HandleMessage` makes on one of its two collaborators. -/
inductive Call where
  | UpsertLatest (record : ScanRecord)
  | Publish (msg : pubsub.Message) (reason : Bytes)
deriving DecidableEq, Repr

/-- The publisher `HandleMessage` uses: the no-op one when it is given nil. -/
def orNoop (dlq : Option DLQPublisher) : DLQPublisher :=
  match dlq with
  | none => NoopDLQPublisher.Publish
  | some d => d

/-- What a collaborator call returned. -/
def Call.returned (db : ScanDB) (dlq : Option DLQPublisher) : Call → Option String
  | .UpsertLatest record => db record
  | .Publish msg reason => orNoop dlq msg reason

/-- The record `HandleMessage` builds from a decoded message and its response string. -/
def recordOf (scan : ScanMessage) (resp : Bytes) : ScanRecord :=
  { IP := scan.Ip, Port := scan.Port, Service := scan.Service,
    Timestamp := (time.Unix scan.Timestamp).UTC, Response := resp }

/-- The function `HandleMessage`: the acknowledgement decision, and the collaborator calls
made, in order. Logging is left out. -/
def HandleMessage (db : ScanDB) (dlq : Option DLQPublisher) (msg : pubsub.Message) :
    Bool × List Call :=
  let dlq := orNoop dlq
  match ParseScanMessage msg.Data with
  | .error _ =>
    match dlq msg (ascii "parse_error") with
    | some _ => (false, [.Publish msg (ascii "parse_error")])
    | none => (true, [.Publish msg (ascii "parse_error")])
  | .ok scan =>
    match scan.ResponseString with
    | .error _ =>
      match dlq msg (ascii "normalize_error") with
      | some _ => (false, [.Publish msg (ascii "normalize_error")])
      | none => (true, [.Publish msg (ascii "normalize_error")])
    | .ok resp =>
      let record := recordOf scan resp
      match db record with
      | some _ => (false, [.UpsertLatest record])
      | none => (true, [.UpsertLatest record])

end processing

deriving instance DecidableEq for Except

/-- The body of the well-formed version 2 message of the handler test, as `json.Marshal`
renders it. -/
def goodBody : Bytes :=
  ascii ("\x7b\"data\":\x7b\"response_str\":\"ok\"\x7d,\"data_version\":2,\"ip\":\"1.1.1.1\","
    ++ "\"port\":80,\"service\":\"HTTP\",\"timestamp\":123\x7d")

/-- The body of the unsupported-version message of the handler test. -/
def badVersionBody : Bytes :=
  ascii ("\x7b\"data\":\x7b\x7d,\"data_version\":99,\"ip\":\"1.1.1.1\","
    ++ "\"port\":80,\"service\":\"HTTP\",\"timestamp\":1\x7d")

/-- The malformed body of the handler test. -/
def malformedBody : Bytes := ascii "\x7bnot json"

namespace json

/-- The kind of a JSON value. -/
inductive Kind where
  | null | bool | number | string | array | object
deriving DecidableEq, Repr

/-- The kind of a scanned value. -/
def Value.kind : Value → Kind
  | .null => .null
  | .bool _ => .bool
  | .number _ => .number
  | .string _ => .string
  | .array _ => .array
  | .object _ => .object

end json

namespace json

/-- The table `hex` of the Go encoder: the lower-case digit of a value below 16. -/
def hexDigit (n : Nat) : Nat := if n < 10 then 0x30 + n else 0x61 + (n - 10)

/-- One rune of a valid string as Go `json.Marshal` writes it inside a string literal
(`appendString` with HTML escaping): short escapes for the quote, the backslash and five
control characters; a six-byte escape (backslash, u, four hexadecimal digits) for the other
control characters, for `<`, `>`, `&` and for the separators U+2028 and U+2029; the UTF-8
bytes of every other rune. -/
def quoteRune (r : Nat) : Bytes :=
  if r < 0x80 then
    if r = 0x5C ∨ r = 0x22 then [0x5C, r]
    else if r = 0x08 then [0x5C, 0x62]
    else if r = 0x0C then [0x5C, 0x66]
    else if r = 0x0A then [0x5C, 0x6E]
    else if r = 0x0D then [0x5C, 0x72]
    else if r = 0x09 then [0x5C, 0x74]
    else if r < 0x20 ∨ r = 0x3C ∨ r = 0x3E ∨ r = 0x26 then
      [0x5C, 0x75, 0x30, 0x30, hexDigit (r / 16), hexDigit (r % 16)]
    else [r]
  else if r = 0x2028 ∨ r = 0x2029 then [0x5C, 0x75, 0x32, 0x30, 0x32, hexDigit (r % 16)]
  else utf8.EncodeRune r

/-- The JSON string literal Go `json.Marshal` writes for a string, quotes included. -/
def quote (s : String) : Bytes := 0x22 :: (s.toList.map Char.toNat).flatMap quoteRune ++ [0x22]

end json

/-- The Go string with the characters of `s`: their UTF-8 bytes. -/
def goString (s : String) : Bytes := (s.toList.map Char.toNat).flatMap utf8.EncodeRune

section StorageTheorems

open storage postgres

theorem UpsertLatest_cases (e : Option String) (t : Table) (r : ScanRecord) :
    (e = none ∧ accepted r = true ∧
      Repository.UpsertLatest e t r =
        (upsertQuery t r.IP (Int.ofNat r.Port) r.Service (encodeTimestamptz r.Timestamp)
          r.Response, none)) ∨
    ((e ≠ none ∨ accepted r = false) ∧ (Repository.UpsertLatest e t r).1 = t ∧
      (Repository.UpsertLatest e t r).2 ≠ none) := by
  unfold Repository.UpsertLatest accepted encodeInt4
  by_cases hp : Int.ofNat r.Port ≤ 2147483647
  · have h1 : ¬ (Int.ofNat r.Port < -2147483648 ∨ Int.ofNat r.Port > 2147483647) := by
      have : (0 : Int) ≤ Int.ofNat r.Port := Int.ofNat_nonneg _
      omega
    rw [if_neg h1]
    cases e with
    | some err => right; simp
    | none =>
      by_cases ha : timestamptzAccepted (encodeTimestamptz r.Timestamp) = true
      · left
        simp only [time.Time.UTC, ha, if_true, hp, decide_True, Bool.and_self, and_self]
      · right
        simp only [time.Time.UTC, ha, if_false, hp, decide_True, Bool.true_and]
        simp
  · have h1 : Int.ofNat r.Port < -2147483648 ∨ Int.ofNat r.Port > 2147483647 := by omega
    rw [if_pos h1]
    right
    simp only [hp, decide_False, Bool.false_and]
    simp

theorem applyUpsert_accepted (t : Table) (r : ScanRecord) (ha : accepted r = true) :
    applyUpsert t r =
      upsertQuery t r.IP (Int.ofNat r.Port) r.Service (encodeTimestamptz r.Timestamp)
        r.Response := by
  unfold applyUpsert
  rcases UpsertLatest_cases none t r with ⟨_, _, h⟩ | ⟨h, _, _⟩
  · rw [h]
  · rcases h with h | h
    · exact absurd rfl h
    · rw [ha] at h; cases h

theorem applyUpsert_rejected (t : Table) (r : ScanRecord) (ha : accepted r = false) :
    applyUpsert t r = t := by
  unfold applyUpsert
  rcases UpsertLatest_cases none t r with ⟨_, h, _⟩ | ⟨_, h, _⟩
  · rw [ha] at h; cases h
  · exact h

theorem applyUpsert_apply (t : Table) (r : ScanRecord) (k : Key) (ha : accepted r = true) :
    applyUpsert t r k =
      if k = keyOf r then
        match t k with
        | none => some (encodeTimestamptz r.Timestamp, r.Response)
        | some (stored, old) =>
          if encodeTimestamptz r.Timestamp ≥ stored then
            some (encodeTimestamptz r.Timestamp, r.Response)
          else some (stored, old)
      else t k := by
  rw [applyUpsert_accepted t r ha]
  rfl

/-- C2. Idempotent persistence: for every table and every record, writing the record twice
leaves the same table as writing it once. -/
theorem C2_idempotent_persistence (t : Table) (r : ScanRecord) :
    applyUpsert (applyUpsert t r) r = applyUpsert t r := by
  by_cases ha : accepted r = true
  · funext k
    by_cases hk : k = keyOf r
    · subst hk
      rw [applyUpsert_apply _ r _ ha, applyUpsert_apply _ r _ ha]
      simp only [if_true]
      cases h : t (keyOf r) with
      | none => simp
      | some row =>
        obtain ⟨stored, old⟩ := row
        by_cases hge : encodeTimestamptz r.Timestamp ≥ stored
        · simp [hge]
        · simp [hge]
    · rw [applyUpsert_apply _ r _ ha, applyUpsert_apply _ r _ ha]
      simp [hk]
  · have hf : accepted r = false := by simpa using ha
    rw [applyUpsert_rejected _ r hf, applyUpsert_rejected _ r hf]

end StorageTheorems

section HandlerTheorems

open storage processing

theorem Except.map_eq_ok {ε α β : Type} (f : α → β) (x : Except ε α) (b : β) :
    f <$> x = .ok b ↔ ∃ a, x = .ok a ∧ f a = b := by
  cases x with
  | error e => simp [Functor.map, Except.map]
  | ok a => simp [Functor.map, Except.map]

theorem setField_Data (msg msg1 : ScanMessage) (m : Bytes × Bytes × json.Value)
    (hm : json.fieldMatches (ascii "data") m.1 = false)
    (h : msg.setField m = .ok msg1) : msg1.Data = msg.Data := by
  simp only [ScanMessage.setField, hm] at h
  split_ifs at h <;>
    first
    | contradiction
    | (rw [Except.map_eq_ok] at h; obtain ⟨a, _, rfl⟩ := h; rfl)
    | (cases h; rfl)

theorem storeMembers_Data (ms : List (Bytes × Bytes × json.Value)) :
    ∀ (msg msg1 : ScanMessage), (∀ m ∈ ms, json.fieldMatches (ascii "data") m.1 = false) →
      storeMembers ScanMessage.setField msg ms = .ok msg1 → msg1.Data = msg.Data := by
  induction ms with
  | nil =>
    intro msg msg1 _ h
    simp only [storeMembers] at h
    cases h; rfl
  | cons m ms ih =>
    intro msg msg1 hall h
    simp only [storeMembers] at h
    cases hset : msg.setField m with
    | error e => rw [hset] at h; cases h
    | ok msg2 =>
      rw [hset] at h
      have h1 := ih msg2 msg1 (fun x hx => hall x (List.mem_cons_of_mem _ hx)) h
      rw [h1]
      exact setField_Data msg msg2 m (hall m (List.mem_cons_self _ _)) hset

/-- C4. Malformed body: for every message whose body fails decoding, `HandleMessage` makes
exactly one call, a dead-letter publish of the original message with reason "parse_error" (so
no `UpsertLatest`), and returns true when that publish succeeds. Decoding fails for every body
that is not valid JSON, the body "{not json" among them, and for every JSON object without a
member for the data field. -/
theorem C4_malformed_body :
    (∀ (db : ScanDB) (dlq : Option DLQPublisher) (msg : pubsub.Message) (err : String),
      ParseScanMessage msg.Data = .error err →
      (HandleMessage db dlq msg).2 = [Call.Publish msg (ascii "parse_error")] ∧
      (orNoop dlq msg (ascii "parse_error") = none → (HandleMessage db dlq msg).1 = true)) ∧
    (∀ raw, json.scan raw = none → ∃ err, ParseScanMessage raw = .error err) ∧
    json.scan malformedBody = none ∧
    (∀ raw ms, json.scan raw = some (.object ms) →
      (∀ m ∈ ms, json.fieldMatches (ascii "data") m.1 = false) →
      ∃ err, ParseScanMessage raw = .error err) := by
  refine ⟨?_, ?_, by rw [← Option.isNone_iff_eq_none]; decide, ?_⟩
  · intro db dlq msg err hparse
    simp only [HandleMessage, hparse]
    cases hpub : orNoop dlq msg (ascii "parse_error") <;> simp
  · intro raw hscan
    simp only [ParseScanMessage, unmarshalStruct, hscan]
    exact ⟨_, rfl⟩
  · intro raw ms hscan hall
    simp only [ParseScanMessage, unmarshalStruct, hscan]
    cases hstore : storeMembers ScanMessage.setField ScanMessage.zero ms with
    | error e => exact ⟨_, rfl⟩
    | ok msg =>
      have hdata := storeMembers_Data ms ScanMessage.zero msg hall hstore
      refine ⟨"missing data field", ?_⟩
      simp [hdata, ScanMessage.zero]

theorem C4_malformed_body_witness :
    (HandleMessage (fun _ => none) none ⟨ascii "m1", malformedBody, [], none⟩).2 =
        [Call.Publish ⟨ascii "m1", malformedBody, [], none⟩ (ascii "parse_error")] ∧
      (orNoop none ⟨ascii "m1", malformedBody, [], none⟩ (ascii "parse_error") = none →
        (HandleMessage (fun _ => none) none ⟨ascii "m1", malformedBody, [], none⟩).1 = true) :=
  C4_malformed_body.1 (fun _ => none) none ⟨ascii "m1", malformedBody, [], none⟩
    "unmarshal scan: invalid character or unexpected end of JSON input" (by decide)

/-- C3. Successful path: for every message whose body decodes and normalizes and whose
repository write succeeds, `HandleMessage` makes exactly one call, an `UpsertLatest` of the
record with the message's ip, port and service, its Unix-second timestamp as a UTC instant and
the normalized response; it makes no dead-letter publish, and returns true. -/
theorem C3_successful_path (db : ScanDB) (dlq : Option DLQPublisher) (msg : pubsub.Message)
    (scan : ScanMessage) (resp : Bytes)
    (hparse : ParseScanMessage msg.Data = .ok scan)
    (hnorm : scan.ResponseString = .ok resp)
    (hwrite : db ⟨scan.Ip, scan.Port, scan.Service, (time.Unix scan.Timestamp).UTC, resp⟩
      = none) :
    HandleMessage db dlq msg =
      (true, [Call.UpsertLatest
        ⟨scan.Ip, scan.Port, scan.Service, (time.Unix scan.Timestamp).UTC, resp⟩]) := by
  simp only [HandleMessage, hparse, hnorm, recordOf, hwrite]

theorem C3_successful_path_witness :
    HandleMessage (fun _ => none) none ⟨ascii "m1", goodBody, [], none⟩ =
      (true, [Call.UpsertLatest
        ⟨ascii "1.1.1.1", 80, ascii "HTTP", (time.Unix 123).UTC, ascii "ok"⟩]) :=
  C3_successful_path (fun _ => none) none ⟨ascii "m1", goodBody, [], none⟩
    ⟨ascii "1.1.1.1", 80, ascii "HTTP", 123, 2, ascii "\x7b\"response_str\":\"ok\"\x7d"⟩
    (ascii "ok") (by decide) (by decide) rfl

/-- C5. Unsupported version: for every envelope whose `data_version` is neither 1 nor 2,
whatever its data, `ResponseString` fails; and `HandleMessage` on a message that decodes to
such an envelope makes exactly one call, a dead-letter publish of the message with reason
"normalize_error" (so no `UpsertLatest`), and returns true when that publish succeeds. -/
theorem C5_unsupported_version (scan : ScanMessage)
    (h1 : scan.DataVersion ≠ 1) (h2 : scan.DataVersion ≠ 2) :
    scan.ResponseString = .error "unsupported data_version" ∧
    ∀ (db : ScanDB) (dlq : Option DLQPublisher) (msg : pubsub.Message),
      ParseScanMessage msg.Data = .ok scan →
      (HandleMessage db dlq msg).2 = [Call.Publish msg (ascii "normalize_error")] ∧
      (orNoop dlq msg (ascii "normalize_error") = none → (HandleMessage db dlq msg).1 = true) := by
  have hresp : scan.ResponseString = .error "unsupported data_version" := by
    simp [ScanMessage.ResponseString, scanning.V1, scanning.V2, h1, h2]
  refine ⟨hresp, ?_⟩
  intro db dlq msg hparse
  simp only [HandleMessage, hparse, hresp]
  cases hpub : orNoop dlq msg (ascii "normalize_error") <;> simp

theorem C5_unsupported_version_witness :
    (HandleMessage (fun _ => none) (some (fun _ _ => none))
        ⟨ascii "m1", badVersionBody, [], none⟩).2 =
      [Call.Publish ⟨ascii "m1", badVersionBody, [], none⟩ (ascii "normalize_error")] :=
  ((C5_unsupported_version ⟨ascii "1.1.1.1", 80, ascii "HTTP", 1, 99, ascii "\x7b\x7d"⟩
    (by decide) (by decide)).2 (fun _ => none) (some (fun _ _ => none))
    ⟨ascii "m1", badVersionBody, [], none⟩ (by decide)).1

/-- C6. Retry decision: for every message and every behaviour of the two collaborators,
`HandleMessage` makes exactly one collaborator call and returns false if and only if that call
returned an error. A message that decodes and normalizes and whose `UpsertLatest` fails gives
no dead-letter publish and false; a message that fails decoding or normalization and whose
dead-letter publish fails gives false. -/
theorem C6_retry_decision (db : ScanDB) (dlq : Option DLQPublisher) (msg : pubsub.Message) :
    (∃ c, (HandleMessage db dlq msg).2 = [c] ∧
      ((HandleMessage db dlq msg).1 = false ↔ (c.returned db dlq).isSome = true)) ∧
    (∀ scan resp e, ParseScanMessage msg.Data = .ok scan → scan.ResponseString = .ok resp →
      db (recordOf scan resp) = some e →
      HandleMessage db dlq msg = (false, [Call.UpsertLatest (recordOf scan resp)])) ∧
    (∀ e1 e2, ParseScanMessage msg.Data = .error e1 →
      orNoop dlq msg (ascii "parse_error") = some e2 → (HandleMessage db dlq msg).1 = false) ∧
    (∀ scan e1 e2, ParseScanMessage msg.Data = .ok scan → scan.ResponseString = .error e1 →
      orNoop dlq msg (ascii "normalize_error") = some e2 →
      (HandleMessage db dlq msg).1 = false) := by
  refine ⟨?_, ?_, ?_, ?_⟩
  · cases hparse : ParseScanMessage msg.Data with
    | error e =>
      cases hpub : orNoop dlq msg (ascii "parse_error") with
      | none =>
        exact ⟨Call.Publish msg (ascii "parse_error"),
          by simp [HandleMessage, hparse, hpub], by simp [HandleMessage, hparse, hpub, Call.returned]⟩
      | some e2 =>
        exact ⟨Call.Publish msg (ascii "parse_error"),
          by simp [HandleMessage, hparse, hpub], by simp [HandleMessage, hparse, hpub, Call.returned]⟩
    | ok scan =>
      cases hnorm : scan.ResponseString with
      | error e =>
        cases hpub : orNoop dlq msg (ascii "normalize_error") with
        | none =>
          exact ⟨Call.Publish msg (ascii "normalize_error"),
            by simp [HandleMessage, hparse, hnorm, hpub],
            by simp [HandleMessage, hparse, hnorm, hpub, Call.returned]⟩
        | some e2 =>
          exact ⟨Call.Publish msg (ascii "normalize_error"),
            by simp [HandleMessage, hparse, hnorm, hpub],
            by simp [HandleMessage, hparse, hnorm, hpub, Call.returned]⟩
      | ok resp =>
        cases hdb : db (recordOf scan resp) with
        | none =>
          exact ⟨Call.UpsertLatest (recordOf scan resp),
            by simp [HandleMessage, hparse, hnorm, hdb],
            by simp [HandleMessage, hparse, hnorm, hdb, Call.returned]⟩
        | some e2 =>
          exact ⟨Call.UpsertLatest (recordOf scan resp),
            by simp [HandleMessage, hparse, hnorm, hdb],
            by simp [HandleMessage, hparse, hnorm, hdb, Call.returned]⟩
  · intro scan resp e hparse hnorm hdb
    simp [HandleMessage, hparse, hnorm, hdb]
  · intro e1 e2 hparse hpub
    simp [HandleMessage, hparse, hpub]
  · intro scan e1 e2 hparse hnorm hpub
    simp [HandleMessage, hparse, hnorm, hpub]

theorem C6_retry_decision_witness :
    HandleMessage (fun _ => some "connection refused") none ⟨ascii "m1", goodBody, [], none⟩ =
      (false, [Call.UpsertLatest
        (recordOf ⟨ascii "1.1.1.1", 80, ascii "HTTP", 123, 2,
          ascii "\x7b\"response_str\":\"ok\"\x7d"⟩ (ascii "ok"))]) :=
  (C6_retry_decision (fun _ => some "connection refused") none
    ⟨ascii "m1", goodBody, [], none⟩).2.1 _ _ "connection refused" (by decide) (by decide) rfl

/-- C10, on the code. `PubSubDLQPublisher.Publish` with a nil topic returns success and
publishes nothing; with a topic and a delivery-attempt count it publishes one message, with
the body unchanged and the attributes reason, orig_msg_id and delivery_attempt (the decimal
string of the count), and returns what the topic returns; with a topic and no count (a nil
`DeliveryAttempt`) it panics on the nil pointer and publishes nothing. -/
theorem C10_publish_panics_without_delivery_attempt (msg : pubsub.Message) (reason : Bytes) :
    PubSubDLQPublisher.Publish ⟨none⟩ msg reason = (.returned none, []) ∧
    (∀ (topic : pubsub.Topic) (n : Int), msg.DeliveryAttempt = some n →
      PubSubDLQPublisher.Publish ⟨some topic⟩ msg reason =
        (.returned (topic ⟨[], msg.Data, [(ascii "reason", reason), (ascii "orig_msg_id", msg.ID),
            (ascii "delivery_attempt", strconv.Itoa n)], none⟩),
          [⟨[], msg.Data, [(ascii "reason", reason), (ascii "orig_msg_id", msg.ID),
            (ascii "delivery_attempt", strconv.Itoa n)], none⟩])) ∧
    (∀ (topic : pubsub.Topic), msg.DeliveryAttempt = none →
      PubSubDLQPublisher.Publish ⟨some topic⟩ msg reason =
        (.panicked "runtime error: invalid memory address or nil pointer dereference", [])) := by
  refine ⟨rfl, ?_, ?_⟩
  · intro topic n h
    simp [PubSubDLQPublisher.Publish, h]
  · intro topic h
    simp only [PubSubDLQPublisher.Publish, h]

theorem C10_publish_panics_without_delivery_attempt_witness :
    PubSubDLQPublisher.Publish ⟨some (fun _ => none)⟩
        ⟨ascii "m1", malformedBody, [], none⟩ (ascii "parse_error") =
      (.panicked "runtime error: invalid memory address or nil pointer dereference", []) :=
  (C10_publish_panics_without_delivery_attempt ⟨ascii "m1", malformedBody, [], none⟩
    (ascii "parse_error")).2.2 (fun _ => none) rfl

end HandlerTheorems

section NormalizerTheorems

open processing

theorem storeMembers_error_of_mem {α : Type}
    (setField : α → Bytes × Bytes × json.Value → Except String α)
    (m : Bytes × Bytes × json.Value) (hm : ∀ a, ∃ e, setField a m = .error e)
    (ms : List (Bytes × Bytes × json.Value)) :
    ∀ (a : α), m ∈ ms → ∃ e, storeMembers setField a ms = .error e := by
  induction ms with
  | nil => intro a h; cases h
  | cons x xs ih =>
    intro a hmem
    simp only [storeMembers]
    cases hx : setField a x with
    | error e => exact ⟨e, rfl⟩
    | ok a1 =>
      rcases List.mem_cons.mp hmem with rfl | hin
      · obtain ⟨e, he⟩ := hm a
        rw [he] at hx
        cases hx
      · exact ih a1 hin

theorem storeMembers_skip {α : Type}
    (setField : α → Bytes × Bytes × json.Value → Except String α)
    (ms : List (Bytes × Bytes × json.Value)) (a : α)
    (h : ∀ m ∈ ms, setField a m = .ok a) : storeMembers setField a ms = .ok a := by
  induction ms with
  | nil => rfl
  | cons x xs ih =>
    simp only [storeMembers, h x (List.mem_cons_self _ _)]
    exact ih (fun m hm => h m (List.mem_cons_of_mem _ hm))

/-- C8, as stated, fails: with a registered version and a data blob without the field the rule
reads (the object with no members, or null), `ResponseString` returns the empty string and no
error. -/
theorem C8_missing_field_gives_empty_response :
    ScanMessage.ResponseString ⟨ascii "1.1.1.1", 80, ascii "HTTP", 1, 2, ascii "\x7b\x7d"⟩
      = .ok [] ∧
    ScanMessage.ResponseString ⟨ascii "1.1.1.1", 80, ascii "HTTP", 1, 1, ascii "\x7b\x7d"⟩
      = .ok [] ∧
    ScanMessage.ResponseString ⟨ascii "1.1.1.1", 80, ascii "HTTP", 1, 2, ascii "null"⟩
      = .ok [] ∧
    ScanMessage.ResponseString ⟨ascii "1.1.1.1", 80, ascii "HTTP", 1, 1, ascii "null"⟩
      = .ok [] := by
  decide

/-- C8, amended. Payload shape mismatch: for every envelope with a registered version (1 or
2), `ResponseString` fails when the data blob is not valid JSON, when it is a JSON value other
than an object or null, and when it is an object with a member for the field of the version
whose value has the wrong type (a boolean, a number or an object for `response_bytes_utf8` of
version 1; anything but a string or null for `response_str` of version 2). When the data blob
is null, or an object with no member for the field of the version, `ResponseString` returns
the empty string without error. -/
theorem C8_payload_shape_mismatch (s : ScanMessage)
    (hv : s.DataVersion = 1 ∨ s.DataVersion = 2) :
    (json.scan s.Data = none → ∃ e, s.ResponseString = .error e) ∧
    (∀ v, json.scan s.Data = some v → v.kind ≠ .null → v.kind ≠ .object →
      ∃ e, s.ResponseString = .error e) ∧
    (∀ ms m, json.scan s.Data = some (.object ms) → m ∈ ms → s.DataVersion = 1 →
      json.fieldMatches (ascii "response_bytes_utf8") m.1 = true →
      (m.2.2.kind = .bool ∨ m.2.2.kind = .number ∨ m.2.2.kind = .object) →
      ∃ e, s.ResponseString = .error e) ∧
    (∀ ms m, json.scan s.Data = some (.object ms) → m ∈ ms → s.DataVersion = 2 →
      json.fieldMatches (ascii "response_str") m.1 = true →
      m.2.2.kind ≠ .string → m.2.2.kind ≠ .null →
      ∃ e, s.ResponseString = .error e) ∧
    (json.scan s.Data = some .null → s.ResponseString = .ok []) ∧
    (∀ ms, json.scan s.Data = some (.object ms) → s.DataVersion = 1 →
      (∀ m ∈ ms, json.fieldMatches (ascii "response_bytes_utf8") m.1 = false) →
      s.ResponseString = .ok []) ∧
    (∀ ms, json.scan s.Data = some (.object ms) → s.DataVersion = 2 →
      (∀ m ∈ ms, json.fieldMatches (ascii "response_str") m.1 = false) →
      s.ResponseString = .ok []) := by
  have h12 : (1 : Int) ≠ 2 := by decide
  refine ⟨?_, ?_, ?_, ?_, ?_, ?_, ?_⟩
  · intro hscan
    rcases hv with h | h <;>
      simp [ScanMessage.ResponseString, scanning.V1, scanning.V2, h, unmarshalStruct, hscan]
  · intro v hscan hnull hobj
    cases v with
    | null => exact absurd rfl hnull
    | object ms => exact absurd rfl hobj
    | bool b =>
      rcases hv with h | h <;>
        simp [ScanMessage.ResponseString, scanning.V1, scanning.V2, h, unmarshalStruct, hscan]
    | number n =>
      rcases hv with h | h <;>
        simp [ScanMessage.ResponseString, scanning.V1, scanning.V2, h, unmarshalStruct, hscan]
    | string n =>
      rcases hv with h | h <;>
        simp [ScanMessage.ResponseString, scanning.V1, scanning.V2, h, unmarshalStruct, hscan]
    | array n =>
      rcases hv with h | h <;>
        simp [ScanMessage.ResponseString, scanning.V1, scanning.V2, h, unmarshalStruct, hscan]
  · intro ms m hscan hmem h1 hfield hkind
    have hm : ∀ a, ∃ e, PayloadV1.setField a m = .error e := by
      intro a
      obtain ⟨key, raw, v⟩ := m
      simp only [PayloadV1.setField, hfield, if_true]
      cases v <;> simp [json.Value.kind] at hkind <;>
        exact ⟨_, rfl⟩
    obtain ⟨e, he⟩ := storeMembers_error_of_mem PayloadV1.setField m hm ms
      ⟨json.ByteSlice.zero⟩ hmem
    simp [ScanMessage.ResponseString, scanning.V1, h1, unmarshalStruct, hscan, he]
  · intro ms m hscan hmem h2 hfield hstr hnull
    have hm : ∀ a, ∃ e, PayloadV2.setField a m = .error e := by
      intro a
      obtain ⟨key, raw, v⟩ := m
      simp only [PayloadV2.setField, hfield, if_true]
      cases v <;> simp [json.Value.kind] at hstr hnull <;>
        exact ⟨_, rfl⟩
    obtain ⟨e, he⟩ := storeMembers_error_of_mem PayloadV2.setField m hm ms ⟨[]⟩ hmem
    simp [ScanMessage.ResponseString, scanning.V1, scanning.V2, h2, unmarshalStruct, hscan, he]
  · intro hscan
    have hz : json.ByteSlice.zero.bytes = [] := rfl
    rcases hv with h | h <;>
      simp [ScanMessage.ResponseString, scanning.V1, scanning.V2, h, unmarshalStruct, hscan, hz]
  · intro ms hscan h1 hall
    have hz : json.ByteSlice.zero.bytes = [] := rfl
    have hskip := storeMembers_skip PayloadV1.setField ms ⟨json.ByteSlice.zero⟩
      (fun m hm => by simp [PayloadV1.setField, hall m hm])
    simp only [ScanMessage.ResponseString, scanning.V1, h1, if_true, unmarshalStruct, hscan,
      hskip, hz]
  · intro ms hscan h2 hall
    have hskip := storeMembers_skip PayloadV2.setField ms ⟨[]⟩
      (fun m hm => by simp [PayloadV2.setField, hall m hm])
    simp [ScanMessage.ResponseString, scanning.V1, scanning.V2, h2, unmarshalStruct, hscan, hskip]

theorem C8_payload_shape_mismatch_witness :
    ∃ e, ScanMessage.ResponseString
      ⟨ascii "1.1.1.1", 80, ascii "HTTP", 1, 2, ascii "\x7b\"response_str\":5\x7d"⟩
        = .error e :=
  (C8_payload_shape_mismatch
    ⟨ascii "1.1.1.1", 80, ascii "HTTP", 1, 2, ascii "\x7b\"response_str\":5\x7d"⟩
    (Or.inr rfl)).2.2.2.1
    [(ascii "response_str", ascii "5", json.Value.number (ascii "5"))]
    (ascii "response_str", ascii "5", json.Value.number (ascii "5"))
    rfl (List.mem_cons_self _ _) rfl (by decide) (by decide) (by decide)

end NormalizerTheorems

section Base64Theorems

open base64

theorem decodeMap_encodeStd : ∀ v, v < 64 → decodeMap (encodeStd v) = some v := by
  decide

theorem decodeMap_pad : decodeMap 0x3D = none := by decide

theorem decodeFrom_quantum (v0 v1 v2 v3 : Nat) (h0 : v0 < 64) (h1 : v1 < 64) (h2 : v2 < 64)
    (h3 : v3 < 64) (rest : Bytes) :
    decodeFrom (encodeStd v0 :: encodeStd v1 :: encodeStd v2 :: encodeStd v3 :: rest) [] =
      (quantumBytes [v0, v1, v2, v3] ++ ·) <$> decodeFrom rest [] := by
  simp [decodeFrom, decodeMap_encodeStd, h0, h1, h2, h3]

theorem decodeFrom_pad2 (v0 v1 : Nat) (h0 : v0 < 64) (h1 : v1 < 64) :
    decodeFrom [encodeStd v0, encodeStd v1, 0x3D, 0x3D] [] = some (quantumBytes [v0, v1]) := by
  simp [decodeFrom, decodeMap_encodeStd, h0, h1, decodeMap_pad, skipNewlines]

theorem decodeFrom_pad1 (v0 v1 v2 : Nat) (h0 : v0 < 64) (h1 : v1 < 64) (h2 : v2 < 64) :
    decodeFrom [encodeStd v0, encodeStd v1, encodeStd v2, 0x3D] [] =
      some (quantumBytes [v0, v1, v2]) := by
  simp [decodeFrom, decodeMap_encodeStd, h0, h1, h2, decodeMap_pad, skipNewlines]

theorem Decode_Encode (b : Bytes) (hb : ∀ x ∈ b, x < 256) : Decode (Encode b) = some b := by
  unfold Decode
  induction b using Encode.induct with
  | case1 => simp [Encode, decodeFrom]
  | case2 a =>
    have ha : a < 256 := hb a (by simp)
    simp only [Encode]
    rw [decodeFrom_pad2 _ _ (Nat.mod_lt _ (by decide)) (Nat.mod_lt _ (by decide))]
    simp only [quantumBytes, List.getD_cons_zero, List.getD_cons_succ, List.getD_nil,
      List.length_cons, List.length_nil]
    simp
    omega
  | case3 a c =>
    have ha : a < 256 := hb a (by simp)
    have hc : c < 256 := hb c (by simp)
    simp only [Encode]
    rw [decodeFrom_pad1 _ _ _ (Nat.mod_lt _ (by decide)) (Nat.mod_lt _ (by decide))
      (Nat.mod_lt _ (by decide))]
    simp only [quantumBytes, List.getD_cons_zero, List.getD_cons_succ, List.getD_nil,
      List.length_cons, List.length_nil]
    simp
    omega
  | case4 a c d rest ih =>
    have ha : a < 256 := hb a (by simp)
    have hc : c < 256 := hb c (by simp)
    have hd : d < 256 := hb d (by simp)
    have hrest : ∀ x ∈ rest, x < 256 := fun x hx => hb x (by simp [hx])
    simp only [Encode]
    rw [decodeFrom_quantum _ _ _ _ (Nat.mod_lt _ (by decide)) (Nat.mod_lt _ (by decide))
      (Nat.mod_lt _ (by decide)) (Nat.mod_lt _ (by decide)), ih hrest]
    simp only [quantumBytes, List.getD_cons_zero, List.getD_cons_succ, List.getD_nil,
      List.length_cons, List.length_nil]
    simp
    omega

end Base64Theorems

section ScannerTheorems

open json

theorem skipSpace_cons_of_not_space (c : Nat) (cs : Bytes) (h : isSpace c = false) :
    skipSpace (c :: cs) = c :: cs := by
  simp [skipSpace, h]

theorem scanString_quote (rest : Bytes) : scanString (0x22 :: rest) = some ([], rest) := by
  rw [scanString.eq_def]
  simp

theorem scanString_cons_plain (c : Nat) (cs : Bytes) (h1 : 0x20 ≤ c) (h2 : c ≠ 0x22)
    (h3 : c ≠ 0x5C) :
    scanString (c :: cs) =
      match scanString cs with
      | some (raw, rest) => some (c :: raw, rest)
      | none => none := by
  have h4 : ¬ c < 0x20 := by omega
  rw [scanString.eq_def]
  simp only [h2, h3, h4, if_false]

theorem scanString_plain (k rest : Bytes)
    (hk : ∀ c ∈ k, 0x20 ≤ c ∧ c ≠ 0x22 ∧ c ≠ 0x5C) :
    scanString (k ++ 0x22 :: rest) = some (k, rest) := by
  induction k with
  | nil => exact scanString_quote rest
  | cons c cs ih =>
    obtain ⟨h1, h2, h3⟩ := hk c (by simp)
    have ih1 := ih (fun x hx => hk x (by simp [hx]))
    simp only [List.cons_append]
    rw [scanString_cons_plain c _ h1 h2 h3, ih1]

theorem unquoteLoop_nil (fuel : Nat) : unquoteLoop fuel [] = some [] := by
  cases fuel <;> simp [unquoteLoop]

theorem unquoteLoop_cons_plain (fuel c : Nat) (cs : Bytes) (h1 : 0x20 ≤ c) (h2 : c < 0x80)
    (h3 : c ≠ 0x22) (h4 : c ≠ 0x5C) :
    unquoteLoop (fuel + 1) (c :: cs) = (c :: ·) <$> unquoteLoop fuel cs := by
  have h5 : ¬ (c = 0x22 ∨ c < 0x20) := by omega
  rw [unquoteLoop.eq_def]
  simp only [h4, h5, h2, if_false, if_true]

theorem unquoteLoop_plain (k : Bytes) :
    ∀ fuel, k.length ≤ fuel → (∀ c ∈ k, 0x20 ≤ c ∧ c < 0x80 ∧ c ≠ 0x22 ∧ c ≠ 0x5C) →
      unquoteLoop fuel k = some k := by
  induction k with
  | nil =>
    intro fuel _ _
    exact unquoteLoop_nil fuel
  | cons c cs ih =>
    intro fuel hlen hk
    obtain ⟨h1, h2, h3, h4⟩ := hk c (by simp)
    cases fuel with
    | zero => simp at hlen
    | succ f =>
      have ih1 := ih f (by simpa using hlen) (fun x hx => hk x (by simp [hx]))
      rw [unquoteLoop_cons_plain f c cs h1 h2 h3 h4, ih1]
      rfl

theorem unquote_plain (k : Bytes)
    (hk : ∀ c ∈ k, 0x20 ≤ c ∧ c < 0x80 ∧ c ≠ 0x22 ∧ c ≠ 0x5C) : unquote k = some k :=
  unquoteLoop_plain k k.length (le_refl _) hk

theorem scanValue_string (f d : Nat) (raw str rest : Bytes)
    (h1 : scanString raw = some (str, rest)) (str1 : Bytes) (h2 : unquote str = some str1) :
    scanValue (f + 1) d (0x22 :: raw) = some (.string str1, rest) := by
  rw [scanValue]
  simp only [if_true, h1, h2]

theorem scanValue_string_member (f d : Nat) (hd : d + 1 ≤ maxNestingDepth)
    (rawKey key rawVal str : Bytes)
    (hk1 : ∀ r, scanString (rawKey ++ 0x22 :: r) = some (rawKey, r))
    (hk2 : unquote rawKey = some key)
    (hv1 : scanString (rawVal ++ [0x22, 0x7D]) = some (rawVal, [0x7D]))
    (hv2 : unquote rawVal = some str) :
    scanValue (f + 3) d
        (0x7B :: 0x22 :: (rawKey ++ 0x22 :: 0x3A :: 0x22 :: (rawVal ++ [0x22, 0x7D]))) =
      some (.object [(key, (0x22 :: (rawVal ++ [0x22, 0x7D])).take
        ((0x22 :: (rawVal ++ [0x22, 0x7D])).length - 1), .string str)], []) := by
  have hdepth : ¬ d + 1 > maxNestingDepth := by omega
  have hval : scanValue (f + 1) (d + 1) (0x22 :: (rawVal ++ [0x22, 0x7D])) =
      some (.string str, [0x7D]) :=
    scanValue_string f (d + 1) _ rawVal [0x7D] hv1 str hv2
  rw [scanValue]
  simp only [show (0x7B : Nat) ≠ 0x22 by decide, if_false, if_true, hdepth]
  rw [skipSpace_cons_of_not_space _ _ (by decide)]
  simp only [show (0x22 : Nat) ≠ 0x7D by decide, if_false]
  rw [scanMembers]
  simp only [ne_eq, not_true_eq_false, if_false, hk1, hk2]
  rw [skipSpace_cons_of_not_space _ _ (by decide)]
  simp only [not_true_eq_false, if_false]
  rw [skipSpace_cons_of_not_space _ _ (by decide), hval]
  simp only [skipSpace, isSpace]
  simp

end ScannerTheorems

section Utf8Theorems

open utf8

theorem first_two (p : Nat) (h1 : 0xC2 ≤ p) (h2 : p ≤ 0xDF) : first p = .multi 2 0x80 0xBF := by
  unfold first
  split_ifs <;> first | rfl | omega

theorem first_three (p : Nat) (h1 : 0xE1 ≤ p) (h2 : p ≤ 0xEF) (h3 : p ≠ 0xED) :
    first p = .multi 3 0x80 0xBF := by
  unfold first
  split_ifs <;> first | rfl | omega

theorem first_four (p : Nat) (h1 : 0xF1 ≤ p) (h2 : p ≤ 0xF3) : first p = .multi 4 0x80 0xBF := by
  unfold first
  split_ifs <;> first | rfl | omega

theorem DecodeRune_two (p0 b1 : Nat) (rest : Bytes) (h1 : 0xC2 ≤ p0) (h2 : p0 ≤ 0xDF)
    (h3 : 0x80 ≤ b1) (h4 : b1 ≤ 0xBF) :
    DecodeRune (p0 :: b1 :: rest) = (p0 % 32 * 64 + b1 % 64, 2) := by
  have h5 : ¬ (b1 < 0x80 ∨ 0xBF < b1) := by omega
  simp [DecodeRune, first_two p0 h1 h2, h5]

theorem DecodeRune_three (p0 b1 b2 lo hi : Nat) (rest : Bytes)
    (hfirst : first p0 = .multi 3 lo hi) (h3 : lo ≤ b1) (h4 : b1 ≤ hi)
    (h5 : 0x80 ≤ b2) (h6 : b2 ≤ 0xBF) :
    DecodeRune (p0 :: b1 :: b2 :: rest) = (p0 % 16 * 4096 + b1 % 64 * 64 + b2 % 64, 3) := by
  have h7 : ¬ (b1 < lo ∨ hi < b1) := by omega
  have h8 : ¬ (b2 < 0x80 ∨ 0xBF < b2) := by omega
  simp [DecodeRune, hfirst, h7, h8]

theorem DecodeRune_four (p0 b1 b2 b3 lo hi : Nat) (rest : Bytes)
    (hfirst : first p0 = .multi 4 lo hi) (h3 : lo ≤ b1) (h4 : b1 ≤ hi)
    (h5 : 0x80 ≤ b2) (h6 : b2 ≤ 0xBF) (h7 : 0x80 ≤ b3) (h8 : b3 ≤ 0xBF) :
    DecodeRune (p0 :: b1 :: b2 :: b3 :: rest) =
      (p0 % 8 * 262144 + b1 % 64 * 4096 + b2 % 64 * 64 + b3 % 64, 4) := by
  have h9 : ¬ (b1 < lo ∨ hi < b1) := by omega
  have h10 : ¬ (b2 < 0x80 ∨ 0xBF < b2) := by omega
  have h11 : ¬ (b3 < 0x80 ∨ 0xBF < b3) := by omega
  simp [DecodeRune, hfirst, h9, h10, h11]

theorem DecodeRune_EncodeRune (r : Nat) (hvalid : r < 0xD800 ∨ (0xDFFF < r ∧ r < 0x110000))
    (h80 : 0x80 ≤ r) (rest : Bytes) :
    DecodeRune (EncodeRune r ++ rest) = (r, (EncodeRune r).length) := by
  by_cases h2 : r ≤ 0x7FF
  · have e : EncodeRune r = [0xC0 + r / 64, 0x80 + r % 64] := by
      unfold EncodeRune
      split_ifs <;> first | rfl | omega
    rw [e]
    simp only [List.cons_append, List.nil_append, List.length_cons, List.length_nil]
    rw [DecodeRune_two _ _ _ (by omega) (by omega) (by omega) (by omega)]
    simp only [Prod.mk.injEq, and_true]
    omega
  · by_cases h3 : r ≤ 0xFFFF
    · have e : EncodeRune r = [0xE0 + r / 4096, 0x80 + r / 64 % 64, 0x80 + r % 64] := by
        unfold EncodeRune
        split_ifs <;> first | rfl | omega
      rw [e]
      simp only [List.cons_append, List.nil_append, List.length_cons, List.length_nil]
      by_cases ha : r < 0x1000
      · have hp : 0xE0 + r / 4096 = 0xE0 := by omega
        rw [hp, DecodeRune_three _ _ _ 0xA0 0xBF _ (by decide) (by omega) (by omega) (by omega)
          (by omega)]
        simp only [Prod.mk.injEq, and_true]
        omega
      · by_cases hb : 0xD000 ≤ r ∧ r < 0xE000
        · have hp : 0xE0 + r / 4096 = 0xED := by omega
          rw [hp, DecodeRune_three _ _ _ 0x80 0x9F _ (by decide) (by omega) (by omega)
            (by omega) (by omega)]
          simp only [Prod.mk.injEq, and_true]
          omega
        · rw [DecodeRune_three _ _ _ 0x80 0xBF _
            (first_three _ (by omega) (by omega) (by omega)) (by omega) (by omega) (by omega)
            (by omega)]
          simp only [Prod.mk.injEq, and_true]
          omega
    · have e : EncodeRune r =
          [0xF0 + r / 262144, 0x80 + r / 4096 % 64, 0x80 + r / 64 % 64, 0x80 + r % 64] := by
        unfold EncodeRune
        split_ifs <;> first | rfl | omega
      rw [e]
      simp only [List.cons_append, List.nil_append, List.length_cons, List.length_nil]
      by_cases ha : r < 0x40000
      · have hp : 0xF0 + r / 262144 = 0xF0 := by omega
        rw [hp, DecodeRune_four _ _ _ _ 0x90 0xBF _ (by decide) (by omega) (by omega) (by omega)
          (by omega) (by omega) (by omega)]
        simp only [Prod.mk.injEq, and_true]
        omega
      · by_cases hb : 0x100000 ≤ r
        · have hp : 0xF0 + r / 262144 = 0xF4 := by omega
          rw [hp, DecodeRune_four _ _ _ _ 0x80 0x8F _ (by decide) (by omega) (by omega)
            (by omega) (by omega) (by omega) (by omega)]
          simp only [Prod.mk.injEq, and_true]
          omega
        · rw [DecodeRune_four _ _ _ _ 0x80 0xBF _ (first_four _ (by omega) (by omega))
            (by omega) (by omega) (by omega) (by omega) (by omega) (by omega)]
          simp only [Prod.mk.injEq, and_true]
          omega

theorem EncodeRune_bytes (r : Nat) (h80 : 0x80 ≤ r) : ∀ c ∈ EncodeRune r, 0x80 ≤ c := by
  unfold EncodeRune
  split_ifs <;> simp <;> omega

theorem EncodeRune_ne_nil (r : Nat) : EncodeRune r ≠ [] := by
  unfold EncodeRune
  split_ifs <;> simp

end Utf8Theorems

section QuoteTheorems

open json

theorem hexValue_hexDigit : ∀ n, n < 16 → hexValue (hexDigit n) = some n := by decide

theorem isHex_hexDigit : ∀ n, n < 16 → isHex (hexDigit n) = true := by decide

/-- The four shapes of `quoteRune` on a valid rune. -/
theorem quoteRune_cases (r : Nat) (hvalid : r < 0xD800 ∨ (0xDFFF < r ∧ r < 0x110000)) :
    (∃ e, quoteRune r = [0x5C, e] ∧ escapeByte e = some r ∧ e ≠ 0x75 ∧ r < 0x80 ∧
      (e = 0x62 ∨ e = 0x66 ∨ e = 0x6E ∨ e = 0x72 ∨ e = 0x74 ∨ e = 0x5C ∨ e = 0x2F ∨ e = 0x22)) ∨
    (∃ h1 h2 h3 h4, quoteRune r = [0x5C, 0x75, h1, h2, h3, h4] ∧
      (isHex h1 && isHex h2 && isHex h3 && isHex h4) = true ∧
      (∀ rest, getu4 (0x5C :: 0x75 :: h1 :: h2 :: h3 :: h4 :: rest) = some r)) ∨
    (quoteRune r = [r] ∧ 0x20 ≤ r ∧ r < 0x80 ∧ r ≠ 0x22 ∧ r ≠ 0x5C) ∨
    (quoteRune r = utf8.EncodeRune r ∧ 0x80 ≤ r) := by
  by_cases h80 : r < 0x80
  · by_cases h1 : r = 0x5C ∨ r = 0x22
    · left
      have hq : quoteRune r = [0x5C, r] := by simp [quoteRune, h80, h1]
      refine ⟨r, hq, ?_, ?_, h80, ?_⟩
      · rcases h1 with h | h <;> subst h <;> decide
      · rcases h1 with h | h <;> subst h <;> decide
      · rcases h1 with h | h <;> subst h <;> decide
    · by_cases h2 : r = 0x08
      · left; subst h2; exact ⟨0x62, by decide⟩
      · by_cases h3 : r = 0x0C
        · left; subst h3; exact ⟨0x66, by decide⟩
        · by_cases h4 : r = 0x0A
          · left; subst h4; exact ⟨0x6E, by decide⟩
          · by_cases h5 : r = 0x0D
            · left; subst h5; exact ⟨0x72, by decide⟩
            · by_cases h6 : r = 0x09
              · left; subst h6; exact ⟨0x74, by decide⟩
              · by_cases h7 : r < 0x20 ∨ r = 0x3C ∨ r = 0x3E ∨ r = 0x26
                · right; left
                  have hq : quoteRune r =
                      [0x5C, 0x75, 0x30, 0x30, hexDigit (r / 16), hexDigit (r % 16)] := by
                    simp only [quoteRune, h80, h1, h2, h3, h4, h5, h6, h7, if_true, if_false]
                  refine ⟨0x30, 0x30, hexDigit (r / 16), hexDigit (r % 16), hq, ?_, ?_⟩
                  · rw [isHex_hexDigit (r / 16) (by omega), isHex_hexDigit (r % 16) (by omega)]
                    decide
                  · intro rest
                    simp only [getu4, and_self, if_true,
                      hexValue_hexDigit (r / 16) (by omega), hexValue_hexDigit (r % 16) (by omega),
                      show hexValue 0x30 = some 0 by decide]
                    simp only [Option.some.injEq]
                    omega
                · right; right; left
                  have hq : quoteRune r = [r] := by
                    simp only [quoteRune, h80, h1, h2, h3, h4, h5, h6, h7, if_true, if_false]
                  exact ⟨hq, by omega, h80, by omega, by omega⟩
  · by_cases h1 : r = 0x2028 ∨ r = 0x2029
    · right; left
      have hq : quoteRune r = [0x5C, 0x75, 0x32, 0x30, 0x32, hexDigit (r % 16)] := by
        simp only [quoteRune, h80, h1, if_true, if_false]
      refine ⟨0x32, 0x30, 0x32, hexDigit (r % 16), hq, ?_, ?_⟩
      · rcases h1 with h | h <;> subst h <;> decide
      · intro rest
        rcases h1 with h | h <;> subst h <;> rfl
    · right; right; right
      have hq : quoteRune r = utf8.EncodeRune r := by
        simp only [quoteRune, h80, h1, if_true, if_false]
      exact ⟨hq, by omega⟩

theorem scanString_append_plain (k rest : Bytes)
    (hk : ∀ c ∈ k, 0x20 ≤ c ∧ c ≠ 0x22 ∧ c ≠ 0x5C) :
    scanString (k ++ rest) =
      match scanString rest with
      | some (raw, rest1) => some (k ++ raw, rest1)
      | none => none := by
  induction k with
  | nil =>
    rw [List.nil_append]
    cases h : scanString rest with
    | none => rfl
    | some p => rfl
  | cons c cs ih =>
    obtain ⟨h1, h2, h3⟩ := hk c (by simp)
    have ih1 := ih (fun x hx => hk x (by simp [hx]))
    simp only [List.cons_append]
    rw [scanString_cons_plain c _ h1 h2 h3, ih1]
    cases h : scanString rest with
    | none => rfl
    | some p => rfl

theorem scanString_quoteRune (r : Nat) (hvalid : r < 0xD800 ∨ (0xDFFF < r ∧ r < 0x110000))
    (rest : Bytes) :
    scanString (quoteRune r ++ rest) =
      match scanString rest with
      | some (raw, rest1) => some (quoteRune r ++ raw, rest1)
      | none => none := by
  rcases quoteRune_cases r hvalid with ⟨e, hq, _, hne, _, hset⟩ | ⟨h1, h2, h3, h4, hq, hhex, _⟩ |
    ⟨hq, hlo, _, hn1, hn2⟩ | ⟨hq, h80⟩
  · rw [hq]
    simp only [List.cons_append, List.nil_append]
    rw [scanString.eq_def]
    simp only [show (0x5C : Nat) ≠ 0x22 by decide, if_false, if_true, hne, hset]
  · rw [hq]
    simp only [List.cons_append, List.nil_append]
    rw [scanString.eq_def]
    simp only [show (0x5C : Nat) ≠ 0x22 by decide, if_false, if_true, hhex]
  · rw [hq]
    exact scanString_append_plain [r] rest (by simpa using ⟨hlo, hn1, hn2⟩)
  · rw [hq]
    apply scanString_append_plain
    intro c hc
    have := EncodeRune_bytes r h80 c hc
    omega

theorem unquoteLoop_quoteRune (fuel r : Nat)
    (hvalid : r < 0xD800 ∨ (0xDFFF < r ∧ r < 0x110000)) (rest : Bytes) :
    unquoteLoop (fuel + 1) (quoteRune r ++ rest) =
      (utf8.EncodeRune r ++ ·) <$> unquoteLoop fuel rest := by
  rcases quoteRune_cases r hvalid with ⟨e, hq, hesc, hne, h80, _⟩ | ⟨h1, h2, h3, h4, hq, _, hu4⟩ |
    ⟨hq, hlo, hhi, hn1, hn2⟩ | ⟨hq, h80⟩
  · rw [hq]
    simp only [List.cons_append, List.nil_append]
    rw [unquoteLoop.eq_def]
    have he : utf8.EncodeRune r = [r] := by
      unfold utf8.EncodeRune
      split_ifs <;> first | rfl | omega
    simp only [if_true, hne, if_false, hesc, he]
    rfl
  · rw [hq]
    simp only [List.cons_append, List.nil_append]
    rw [unquoteLoop.eq_def]
    have hsur : utf16.IsSurrogate r = false := by
      simp only [utf16.IsSurrogate, Bool.and_eq_false_imp, decide_eq_true_eq, decide_eq_false_iff_not]
      omega
    simp only [if_true, hu4, hsur, List.drop_succ_cons, List.drop_zero]
    simp
  · rw [hq]
    simp only [List.cons_append, List.nil_append]
    rw [unquoteLoop_cons_plain fuel r rest hlo hhi hn1 hn2]
    have he : utf8.EncodeRune r = [r] := by
      unfold utf8.EncodeRune
      split_ifs <;> first | rfl | omega
    rw [he]
    rfl
  · rw [hq]
    have hdec := DecodeRune_EncodeRune r hvalid h80 rest
    obtain ⟨c, cs, hcs⟩ : ∃ c cs, utf8.EncodeRune r = c :: cs := by
      cases h : utf8.EncodeRune r with
      | nil => exact absurd h (EncodeRune_ne_nil r)
      | cons c cs => exact ⟨c, cs, rfl⟩
    have hc : 0x80 ≤ c := EncodeRune_bytes r h80 c (by rw [hcs]; simp)
    have h1 : c ≠ 0x5C := by omega
    have h2 : ¬ (c = 0x22 ∨ c < 0x20) := by omega
    have h3 : ¬ c < 0x80 := by omega
    have hdrop : (utf8.EncodeRune r ++ rest).drop (utf8.EncodeRune r).length = rest := by
      simp
    have hunf : unquoteLoop (fuel + 1) (c :: (cs ++ rest)) =
        (utf8.EncodeRune (utf8.DecodeRune (c :: (cs ++ rest))).1 ++ ·) <$>
          unquoteLoop fuel ((c :: (cs ++ rest)).drop (utf8.DecodeRune (c :: (cs ++ rest))).2) := by
      rw [unquoteLoop.eq_def]
      simp only [h1, h2, h3, if_false]
    rw [hcs] at hdec hdrop
    simp only [List.cons_append] at hdec hdrop
    rw [hcs]
    simp only [List.cons_append]
    rw [hunf, hdec]
    simp only [hdrop, hcs, List.cons_append]

end QuoteTheorems

section RoundTripTheorems

open json processing

theorem scan_string_member (rawKey key rawVal str : Bytes)
    (hk1 : ∀ r, scanString (rawKey ++ 0x22 :: r) = some (rawKey, r))
    (hk2 : unquote rawKey = some key)
    (hv1 : scanString (rawVal ++ [0x22, 0x7D]) = some (rawVal, [0x7D]))
    (hv2 : unquote rawVal = some str) :
    json.scan (0x7B :: 0x22 :: (rawKey ++ 0x22 :: 0x3A :: 0x22 :: (rawVal ++ [0x22, 0x7D]))) =
      some (.object [(key, (0x22 :: (rawVal ++ [0x22, 0x7D])).take
        ((0x22 :: (rawVal ++ [0x22, 0x7D])).length - 1), .string str)]) := by
  unfold json.scan
  rw [skipSpace_cons_of_not_space _ _ (by decide)]
  have hfuel : ∀ n, 2 * (n + 1) + 2 = (2 * n + 1) + 3 := by intro n; omega
  rw [List.length_cons, hfuel,
    scanValue_string_member _ 0 (by decide) rawKey key rawVal str hk1 hk2 hv1 hv2]
  simp [skipSpace]

theorem encodeStd_plain (v : Nat) :
    0x20 ≤ base64.encodeStd v ∧ base64.encodeStd v < 0x80 ∧ base64.encodeStd v ≠ 0x22 ∧
      base64.encodeStd v ≠ 0x5C := by
  unfold base64.encodeStd
  split_ifs <;> omega

theorem Encode_plain (b : Bytes) :
    ∀ c ∈ base64.Encode b, 0x20 ≤ c ∧ c < 0x80 ∧ c ≠ 0x22 ∧ c ≠ 0x5C := by
  induction b using base64.Encode.induct with
  | case1 => simp [base64.Encode]
  | case2 a =>
    intro c hc
    simp only [base64.Encode, List.mem_cons, List.mem_singleton, List.not_mem_nil, or_false] at hc
    rcases hc with h | h | h | h <;> subst h <;> first | exact encodeStd_plain _ | decide
  | case3 a d =>
    intro c hc
    simp only [base64.Encode, List.mem_cons, List.mem_singleton, List.not_mem_nil, or_false] at hc
    rcases hc with h | h | h | h <;> subst h <;> first | exact encodeStd_plain _ | decide
  | case4 a d e rest ih =>
    intro c hc
    simp only [base64.Encode, List.mem_cons] at hc
    rcases hc with h | h | h | h | h
    · subst h; exact encodeStd_plain _
    · subst h; exact encodeStd_plain _
    · subst h; exact encodeStd_plain _
    · subst h; exact encodeStd_plain _
    · exact ih c h

theorem fieldMatches_self (name : Bytes) : fieldMatches name name = true := by
  simp [fieldMatches]

theorem ResponseString_v1_base64 (ip service : Bytes) (port : Nat) (ts : Int) (b : Bytes)
    (hb : ∀ x ∈ b, x < 256) :
    ScanMessage.ResponseString ⟨ip, port, service, ts, 1,
      ascii "\x7b\"response_bytes_utf8\":\"" ++ base64.Encode b ++ ascii "\"\x7d"⟩ = .ok b := by
  have hdata : ascii "\x7b\"response_bytes_utf8\":\"" ++ base64.Encode b ++ ascii "\"\x7d" =
      0x7B :: 0x22 :: (ascii "response_bytes_utf8" ++ 0x22 :: 0x3A :: 0x22 ::
        (base64.Encode b ++ [0x22, 0x7D])) := by
    rw [show ascii "\x7b\"response_bytes_utf8\":\"" =
      0x7B :: 0x22 :: (ascii "response_bytes_utf8" ++ [0x22, 0x3A, 0x22]) by decide,
      show ascii "\"\x7d" = [0x22, 0x7D] by decide]
    simp
  have hkey : ∀ c ∈ ascii "response_bytes_utf8", 0x20 ≤ c ∧ c < 0x80 ∧ c ≠ 0x22 ∧ c ≠ 0x5C := by
    decide
  have hscan := scan_string_member (ascii "response_bytes_utf8") (ascii "response_bytes_utf8")
    (base64.Encode b) (base64.Encode b)
    (fun r => scanString_plain _ r (fun c hc => ⟨(hkey c hc).1, (hkey c hc).2.2⟩))
    (unquote_plain _ hkey)
    (scanString_plain _ [0x7D]
      (fun c hc => ⟨(Encode_plain b c hc).1, (Encode_plain b c hc).2.2⟩))
    (unquote_plain _ (Encode_plain b))
  have hdec : base64.Decode (base64.Encode b) = some b := Decode_Encode b hb
  simp only [ScanMessage.ResponseString, scanning.V1, if_true, hdata, unmarshalStruct, hscan,
    storeMembers, PayloadV1.setField, fieldMatches_self, json.storeBytes, hdec]
  simp [Functor.map, Except.map, json.ByteSlice.bytes]

theorem scanString_quoted (rs : List Nat)
    (hrs : ∀ r ∈ rs, r < 0xD800 ∨ (0xDFFF < r ∧ r < 0x110000)) (rest : Bytes) :
    scanString (rs.flatMap quoteRune ++ 0x22 :: rest) = some (rs.flatMap quoteRune, rest) := by
  induction rs with
  | nil => exact scanString_quote rest
  | cons r rs ih =>
    have ih1 := ih (fun x hx => hrs x (by simp [hx]))
    simp only [List.flatMap_cons, List.append_assoc]
    rw [scanString_quoteRune r (hrs r (by simp)), ih1]

theorem unquoteLoop_quoted (rs : List Nat) :
    ∀ fuel, rs.length ≤ fuel → (∀ r ∈ rs, r < 0xD800 ∨ (0xDFFF < r ∧ r < 0x110000)) →
      unquoteLoop fuel (rs.flatMap quoteRune) = some (rs.flatMap utf8.EncodeRune) := by
  induction rs with
  | nil =>
    intro fuel _ _
    exact unquoteLoop_nil fuel
  | cons r rs ih =>
    intro fuel hlen hrs
    cases fuel with
    | zero => simp at hlen
    | succ f =>
      have ih1 := ih f (by simpa using hlen) (fun x hx => hrs x (by simp [hx]))
      simp only [List.flatMap_cons]
      rw [unquoteLoop_quoteRune f r (hrs r (by simp)), ih1]
      rfl

theorem quoteRune_length_pos (r : Nat) : 1 ≤ (quoteRune r).length := by
  have hne : 1 ≤ (utf8.EncodeRune r).length := by
    cases h : utf8.EncodeRune r with
    | nil => exact absurd h (EncodeRune_ne_nil r)
    | cons c cs => simp
  unfold quoteRune
  split_ifs <;> first | exact hne | simp

theorem length_le_flatMap_quoteRune (rs : List Nat) :
    rs.length ≤ (rs.flatMap quoteRune).length := by
  induction rs with
  | nil => simp
  | cons r rs ih =>
    simp only [List.flatMap_cons, List.length_cons, List.length_append]
    have := quoteRune_length_pos r
    omega

theorem char_valid (c : Char) : c.toNat < 0xD800 ∨ (0xDFFF < c.toNat ∧ c.toNat < 0x110000) :=
  c.valid

theorem ResponseString_v2_literal (ip service : Bytes) (port : Nat) (ts : Int)
    (lit str : Bytes) (hlit : scanString (lit ++ [0x22, 0x7D]) = some (lit, [0x7D]))
    (hstr : unquote lit = some str) :
    ScanMessage.ResponseString ⟨ip, port, service, ts, 2,
      ascii "\x7b\"response_str\":\"" ++ lit ++ ascii "\"\x7d"⟩ = .ok str := by
  have hdata : ascii "\x7b\"response_str\":\"" ++ lit ++ ascii "\"\x7d" =
      0x7B :: 0x22 :: (ascii "response_str" ++ 0x22 :: 0x3A :: 0x22 ::
        (lit ++ [0x22, 0x7D])) := by
    rw [show ascii "\x7b\"response_str\":\"" =
      0x7B :: 0x22 :: (ascii "response_str" ++ [0x22, 0x3A, 0x22]) by decide,
      show ascii "\"\x7d" = [0x22, 0x7D] by decide]
    simp
  have hkey : ∀ c ∈ ascii "response_str", 0x20 ≤ c ∧ c < 0x80 ∧ c ≠ 0x22 ∧ c ≠ 0x5C := by
    decide
  have hscan := scan_string_member (ascii "response_str") (ascii "response_str") lit str
    (fun r => scanString_plain _ r (fun c hc => ⟨(hkey c hc).1, (hkey c hc).2.2⟩))
    (unquote_plain _ hkey) hlit hstr
  have h12 : (2 : Int) ≠ 1 := by decide
  simp only [ScanMessage.ResponseString, scanning.V1, scanning.V2, h12, if_false, if_true, hdata,
    unmarshalStruct, hscan, storeMembers, PayloadV2.setField, fieldMatches_self,
    json.storeString]
  rfl

theorem ResponseString_v2_quoted (ip service : Bytes) (port : Nat) (ts : Int) (s : String) :
    ScanMessage.ResponseString ⟨ip, port, service, ts, 2,
      ascii "\x7b\"response_str\":" ++ json.quote s ++ ascii "\x7d"⟩ = .ok (goString s) := by
  have hrs : ∀ r ∈ s.toList.map Char.toNat, r < 0xD800 ∨ (0xDFFF < r ∧ r < 0x110000) := by
    intro r hr
    obtain ⟨c, _, rfl⟩ := List.mem_map.mp hr
    exact char_valid c
  have hdata : ascii "\x7b\"response_str\":" ++ json.quote s ++ ascii "\x7d" =
      ascii "\x7b\"response_str\":\"" ++ (s.toList.map Char.toNat).flatMap quoteRune
        ++ ascii "\"\x7d" := by
    rw [show ascii "\x7b\"response_str\":\"" = ascii "\x7b\"response_str\":" ++ [0x22] by decide,
      show ascii "\"\x7d" = 0x22 :: ascii "\x7d" by decide]
    simp [json.quote]
  rw [hdata]
  exact ResponseString_v2_literal ip service port ts _ (goString s)
    (scanString_quoted _ hrs [0x7D])
    (unquoteLoop_quoted _ _ (length_le_flatMap_quoteRune _) hrs)

/-- C7. Version round-trip: for every byte sequence b, the version 1 envelope whose data is
the object with `response_bytes_utf8` set to the base64 text of b normalizes, without error,
to the string whose bytes are b; for every string s, the version 2 envelope whose data is the
object with `response_str` set to s normalizes, without error, to s, both when s is written
as `json.Marshal` writes it and, more generally, for every string literal the scanner accepts,
whose unquoted text is then the result. The base64 text of "hello world" is
"aGVsbG8gd29ybGQ=" and gives "hello world"; "ok" gives "ok". -/
theorem C7_version_round_trip :
    (∀ (ip service : Bytes) (port : Nat) (ts : Int) (b : Bytes), (∀ x ∈ b, x < 256) →
      ScanMessage.ResponseString ⟨ip, port, service, ts, 1,
        ascii "\x7b\"response_bytes_utf8\":\"" ++ base64.Encode b ++ ascii "\"\x7d"⟩ = .ok b) ∧
    (∀ (ip service : Bytes) (port : Nat) (ts : Int) (s : String),
      ScanMessage.ResponseString ⟨ip, port, service, ts, 2,
        ascii "\x7b\"response_str\":" ++ json.quote s ++ ascii "\x7d"⟩ = .ok (goString s)) ∧
    (∀ (ip service : Bytes) (port : Nat) (ts : Int) (lit str : Bytes),
      json.scanString (lit ++ [0x22, 0x7D]) = some (lit, [0x7D]) → json.unquote lit = some str →
      ScanMessage.ResponseString ⟨ip, port, service, ts, 2,
        ascii "\x7b\"response_str\":\"" ++ lit ++ ascii "\"\x7d"⟩ = .ok str) ∧
    ScanMessage.ResponseString ⟨ascii "1.1.1.1", 80, ascii "HTTP", 1, 1,
      ascii "\x7b\"response_bytes_utf8\":\"aGVsbG8gd29ybGQ=\"\x7d"⟩
        = .ok (ascii "hello world") ∧
    ScanMessage.ResponseString ⟨ascii "1.1.1.1", 22, ascii "SSH", 1, 2,
      ascii "\x7b\"response_str\":\"ok\"\x7d"⟩ = .ok (ascii "ok") :=
  ⟨ResponseString_v1_base64, ResponseString_v2_quoted, ResponseString_v2_literal,
    by decide, by decide⟩

theorem C7_version_round_trip_witness :
    ScanMessage.ResponseString ⟨ascii "1.1.1.1", 80, ascii "HTTP", 1, 1,
      ascii "\x7b\"response_bytes_utf8\":\"" ++ base64.Encode (ascii "hello world")
        ++ ascii "\"\x7d"⟩ = .ok (ascii "hello world") :=
  C7_version_round_trip.1 (ascii "1.1.1.1") (ascii "HTTP") 80 1 (ascii "hello world")
    (by decide)

end RoundTripTheorems
section StringLengthTheorems

open json

theorem skipSpace_length_le (s : Bytes) : (skipSpace s).length ≤ s.length := by
  induction s with
  | nil => simp [skipSpace]
  | cons c cs ih =>
    simp only [skipSpace]
    split_ifs
    · simp only [List.length_cons]; omega
    · exact le_refl _

theorem skipSpace_cons_length (s rest : Bytes) (d : Nat) (h : skipSpace s = d :: rest) :
    rest.length + 1 ≤ s.length := by
  have := skipSpace_length_le s
  rw [h] at this
  simpa using this

theorem scanString_length_aux (n : Nat) :
    ∀ s : Bytes, s.length ≤ n → ∀ raw rest, scanString s = some (raw, rest) →
      rest.length + 1 ≤ s.length := by
  induction n with
  | zero =>
    intro s hs raw rest h
    have : s = [] := List.length_eq_zero.mp (by omega)
    subst this
    simp [scanString] at h
  | succ n ih =>
    intro s hs raw rest h
    rw [scanString.eq_def] at h
    split at h
    · cases h
    · rename_i c cs
      simp only [List.length_cons] at hs ⊢
      split_ifs at h with h1 h2 h3
      · simp only [Option.some.injEq, Prod.mk.injEq] at h
        obtain ⟨_, rfl⟩ := h
        omega
      · split at h
        · cases h
        · rename_i e cs1
          split_ifs at h with h4 h5
          · split at h
            · rename_i a1 a2 a3 a4 cs2
              split_ifs at h
              split at h
              · rename_i raw1 rest1 heq
                simp only [Option.some.injEq, Prod.mk.injEq] at h
                obtain ⟨_, rfl⟩ := h
                have := ih cs2 (by simp only [List.length_cons] at hs; omega) _ _ heq
                simp only [List.length_cons]
                omega
              · cases h
            · cases h
          · split at h
            · rename_i raw1 rest1 heq
              simp only [Option.some.injEq, Prod.mk.injEq] at h
              obtain ⟨_, rfl⟩ := h
              have := ih cs1 (by simp only [List.length_cons] at hs; omega) _ _ heq
              simp only [List.length_cons]
              omega
            · cases h
      · split at h
        · rename_i raw1 rest1 heq
          simp only [Option.some.injEq, Prod.mk.injEq] at h
          obtain ⟨_, rfl⟩ := h
          have := ih cs (by omega) _ _ heq
          omega
        · cases h

theorem scanString_length (s raw rest : Bytes) (h : scanString s = some (raw, rest)) :
    rest.length + 1 ≤ s.length :=
  scanString_length_aux s.length s (le_refl _) raw rest h

end StringLengthTheorems

section ScanLengthTheorems

open json

theorem skipDigits_length_le (s : Bytes) : (skipDigits s).length ≤ s.length := by
  induction s with
  | nil => simp [skipDigits]
  | cons c cs ih =>
    simp only [skipDigits]
    split_ifs
    · simp only [List.length_cons]; omega
    · exact le_refl _

theorem scanInt_length (s rest : Bytes) (h : scanInt s = some rest) : rest.length ≤ s.length := by
  unfold scanInt at h
  split at h
  · cases h
  · rename_i d t
    have := skipDigits_length_le t
    split_ifs at h <;> cases h <;> simp only [List.length_cons] <;> omega

theorem scanFrac_length (s rest : Bytes) (h : scanFrac s = some rest) :
    rest.length ≤ s.length := by
  unfold scanFrac at h
  split at h
  · cases h; exact le_refl _
  · rename_i c t
    split_ifs at h
    · split at h
      · cases h
      · rename_i d t1
        have := skipDigits_length_le t1
        split_ifs at h
        cases h
        simp only [List.length_cons]
        omega
    · cases h; exact le_refl _

theorem scanExpDigits_length (s rest : Bytes) (h : scanExpDigits s = some rest) :
    rest.length ≤ s.length := by
  unfold scanExpDigits at h
  split at h
  · cases h
  · rename_i d t
    have := skipDigits_length_le t
    split_ifs at h
    cases h
    simp only [List.length_cons]
    omega

theorem scanExp_length (s rest : Bytes) (h : scanExp s = some rest) :
    rest.length ≤ s.length := by
  unfold scanExp at h
  split at h
  · cases h; exact le_refl _
  · rename_i c t
    split_ifs at h
    · split at h
      · cases h
      · rename_i g t1
        split_ifs at h
        · have := scanExpDigits_length _ _ h
          simp only [List.length_cons]
          omega
        · have := scanExpDigits_length _ _ h
          simp only [List.length_cons] at this ⊢
          omega
    · cases h; exact le_refl _

theorem scanNumber_length (s rest : Bytes) (h : scanNumber s = some rest) :
    rest.length ≤ s.length := by
  have key : ∀ body : Bytes, body.length ≤ s.length →
      (match scanInt body with
        | none => none
        | some s1 =>
          match scanFrac s1 with
          | none => none
          | some s2 => scanExp s2) = some rest → rest.length ≤ s.length := by
    intro body hbody h
    split at h
    · cases h
    · rename_i s1 h1
      split at h
      · cases h
      · rename_i s2 h2
        have a1 := scanInt_length _ _ h1
        have a2 := scanFrac_length _ _ h2
        have a3 := scanExp_length _ _ h
        omega
  unfold scanNumber at h
  refine key _ ?_ h
  split
  · exact le_refl _
  · split_ifs
    · simp
    · exact le_refl _

theorem stripWord_length (w s rest : Bytes) (h : stripWord w s = some rest) :
    rest.length ≤ s.length := by
  unfold stripWord at h
  split_ifs at h
  cases h
  simp

theorem scan_length (fuel : Nat) : ∀ (d : Nat) (s : Bytes),
    (∀ v rest, scanValue fuel d s = some (v, rest) → rest.length ≤ s.length) ∧
    (∀ vs rest, scanElems fuel d s = some (vs, rest) → rest.length ≤ s.length) ∧
    (∀ ms rest, scanMembers fuel d s = some (ms, rest) → rest.length ≤ s.length) := by
  induction fuel with
  | zero =>
    intro d s
    refine ⟨?_, ?_, ?_⟩ <;> intro a rest h
    · simp [scanValue] at h
    · simp [scanElems] at h
    · simp [scanMembers] at h
  | succ f ih =>
    intro d s
    refine ⟨?_, ?_, ?_⟩
    · intro v rest h
      cases s with
      | nil => simp [scanValue] at h
      | cons c cs =>
        rw [scanValue] at h
        simp only [List.length_cons]
        split_ifs at h with h1 h2 h3 h4 h5 h6 h7 h8 h9
        · split at h
          · cases h
          · rename_i raw rest1 hs
            have := scanString_length _ _ _ hs
            split at h
            · cases h
            · cases h; omega
        · split at h
          · cases h
          · rename_i x rest1 hsp
            have := skipSpace_cons_length _ _ _ hsp
            split_ifs at h
            · cases h; omega
            · split at h
              · cases h
              · rename_i ms rest2 hm
                have := (ih (d + 1) (x :: rest1)).2.2 _ _ hm
                simp only [List.length_cons] at this
                cases h; omega
        · split at h
          · cases h
          · rename_i x rest1 hsp
            have := skipSpace_cons_length _ _ _ hsp
            split_ifs at h
            · cases h; omega
            · split at h
              · cases h
              · rename_i vs rest2 hm
                have := (ih (d + 1) (x :: rest1)).2.1 _ _ hm
                simp only [List.length_cons] at this
                cases h; omega
        · simp only [Option.map_eq_map, Option.map_eq_some', Prod.mk.injEq] at h
          obtain ⟨r, hr, _, rfl⟩ := h
          have := stripWord_length _ _ _ hr
          simpa using this
        · simp only [Option.map_eq_map, Option.map_eq_some', Prod.mk.injEq] at h
          obtain ⟨r, hr, _, rfl⟩ := h
          have := stripWord_length _ _ _ hr
          simpa using this
        · simp only [Option.map_eq_map, Option.map_eq_some', Prod.mk.injEq] at h
          obtain ⟨r, hr, _, rfl⟩ := h
          have := stripWord_length _ _ _ hr
          simpa using this
        · simp only [Option.map_eq_map, Option.map_eq_some', Prod.mk.injEq] at h
          obtain ⟨r, hr, _, rfl⟩ := h
          have := scanNumber_length _ _ hr
          simpa using this
    · intro vs rest h
      rw [scanElems] at h
      split at h
      · cases h
      · rename_i v s1 hv
        have a1 := (ih d s).1 _ _ hv
        split at h
        · cases h
        · rename_i x rest1 hsp
          have a2 := skipSpace_cons_length _ _ _ hsp
          split_ifs at h
          · split at h
            · cases h
            · rename_i vs1 rest2 hm
              have a3 := (ih d (skipSpace rest1)).2.1 _ _ hm
              have a4 := skipSpace_length_le rest1
              cases h; omega
          · cases h; omega
    · intro ms rest h
      cases s with
      | nil => simp [scanMembers] at h
      | cons q s1 =>
        rw [scanMembers] at h
        simp only [List.length_cons]
        split_ifs at h
        split at h
        · cases h
        · rename_i rawKey s2 hs
          have a1 := scanString_length _ _ _ hs
          split at h
          · cases h
          · split at h
            · cases h
            · rename_i colon s3 hsp
              have a2 := skipSpace_cons_length _ _ _ hsp
              split_ifs at h
              split at h
              · cases h
              · rename_i v s5 hv
                have a3 := (ih d (skipSpace s3)).1 _ _ hv
                have a4 := skipSpace_length_le s3
                simp only at h
                split at h
                · cases h
                · rename_i x rest1 hsp2
                  have a5 := skipSpace_cons_length _ _ _ hsp2
                  split_ifs at h
                  · split at h
                    · cases h
                    · rename_i ms1 rest2 hm
                      have a6 := (ih d (skipSpace rest1)).2.2 _ _ hm
                      have a7 := skipSpace_length_le rest1
                      cases h; omega
                  · cases h; omega

end ScanLengthTheorems

section ScanBoundTheorems

open json

theorem scan_fuel_step (fuel : Nat) : ∀ (d : Nat) (s : Bytes),
    (2 * s.length + 1 ≤ fuel → scanValue (fuel + 1) d s = scanValue fuel d s) ∧
    (2 * s.length + 2 ≤ fuel → scanElems (fuel + 1) d s = scanElems fuel d s) ∧
    (2 * s.length + 1 ≤ fuel → scanMembers (fuel + 1) d s = scanMembers fuel d s) := by
  induction fuel with
  | zero =>
    intro d s
    refine ⟨?_, ?_, ?_⟩ <;> intro h <;> omega
  | succ f ih =>
    intro d s
    refine ⟨?_, ?_, ?_⟩
    · intro hf
      cases s with
      | nil => simp [scanValue]
      | cons c cs =>
        rw [scanValue, scanValue]
        simp only [List.length_cons] at hf
        cases hsp : skipSpace cs with
        | nil => rfl
        | cons x rest =>
          have hlen := skipSpace_cons_length _ _ _ hsp
          have e1 := (ih (d + 1) (x :: rest)).2.2 (by simp only [List.length_cons]; omega)
          have e2 := (ih (d + 1) (x :: rest)).2.1 (by simp only [List.length_cons]; omega)
          simp only [e1, e2]
    · intro hf
      rw [scanElems, scanElems]
      have e1 := (ih d s).1 (by omega)
      rw [e1]
      cases hv : scanValue f d s with
      | none => rfl
      | some p =>
        obtain ⟨v, s1⟩ := p
        have a1 := (scan_length f d s).1 _ _ hv
        simp only
        cases hsp : skipSpace s1 with
        | nil => rfl
        | cons x rest =>
          have a2 := skipSpace_cons_length _ _ _ hsp
          have a3 := skipSpace_length_le rest
          have e2 := (ih d (skipSpace rest)).2.1 (by omega)
          simp only [e2]
    · intro hf
      cases s with
      | nil => simp [scanMembers]
      | cons q s1 =>
        rw [scanMembers, scanMembers]
        simp only [List.length_cons] at hf
        by_cases hq : q ≠ 0x22
        · rw [if_pos hq, if_pos hq]
        · rw [if_neg hq, if_neg hq]
          cases hs : scanString s1 with
          | none => rfl
          | some p =>
            obtain ⟨rawKey, s2⟩ := p
            have a1 := scanString_length _ _ _ hs
            simp only
            cases hu : unquote rawKey with
            | none => rfl
            | some key =>
              simp only
              cases hsp : skipSpace s2 with
              | nil => rfl
              | cons colon s3 =>
                have a2 := skipSpace_cons_length _ _ _ hsp
                have a3 := skipSpace_length_le s3
                simp only
                by_cases hc : colon ≠ 0x3A
                · rw [if_pos hc, if_pos hc]
                · rw [if_neg hc, if_neg hc]
                  have e1 := (ih d (skipSpace s3)).1 (by omega)
                  rw [e1]
                  cases hv : scanValue f d (skipSpace s3) with
                  | none => rfl
                  | some p2 =>
                    obtain ⟨v, s5⟩ := p2
                    have a4 := (scan_length f d (skipSpace s3)).1 _ _ hv
                    simp only
                    cases hsp2 : skipSpace s5 with
                    | nil => rfl
                    | cons x rest =>
                      have a5 := skipSpace_cons_length _ _ _ hsp2
                      have a6 := skipSpace_length_le rest
                      have e2 := (ih d (skipSpace rest)).2.2 (by omega)
                      simp only [e2]

/-- The bound on the chain of nested calls never cuts a scan short: from the bound `json.scan`
uses on, every larger one gives the same result. -/
theorem scanValue_fuel_enough (d : Nat) (s : Bytes) (k : Nat) :
    scanValue (2 * s.length + 1 + k) d s = scanValue (2 * s.length + 1) d s := by
  induction k with
  | zero => rfl
  | succ k ih =>
    rw [← ih, ← Nat.add_assoc]
    exact (scan_fuel_step (2 * s.length + 1 + k) d s).1 (by omega)

theorem scan_fuel_enough (data : Bytes) (k : Nat) :
    scanValue (2 * data.length + 2 + k) 0 (skipSpace data) =
      scanValue (2 * data.length + 2) 0 (skipSpace data) := by
  have h := skipSpace_length_le data
  obtain ⟨j, hj⟩ : ∃ j, 2 * data.length + 2 = 2 * (skipSpace data).length + 1 + j :=
    ⟨2 * data.length + 2 - (2 * (skipSpace data).length + 1), by omega⟩
  rw [hj, Nat.add_assoc, scanValue_fuel_enough, scanValue_fuel_enough]

end ScanBoundTheorems

section LoopBoundTheorems

open json

theorem DecodeRune_size_pos (c : Nat) (cs : Bytes) : 1 ≤ (utf8.DecodeRune (c :: cs)).2 := by
  unfold utf8.DecodeRune
  simp only
  split
  · exact le_refl _
  · exact le_refl _
  · split_ifs <;> simp

theorem unquoteLoop_fuel_step (fuel : Nat) :
    ∀ s : Bytes, s.length ≤ fuel → unquoteLoop (fuel + 1) s = unquoteLoop fuel s := by
  induction fuel with
  | zero =>
    intro s hs
    have : s = [] := List.length_eq_zero.mp (by omega)
    subst this
    rw [unquoteLoop_nil, unquoteLoop_nil]
  | succ f ih =>
    intro s hs
    cases s with
    | nil => rw [unquoteLoop_nil, unquoteLoop_nil]
    | cons c cs =>
      simp only [List.length_cons] at hs
      have e1 := ih cs (by omega)
      have e2 := ih ((c :: cs).drop 6) (by simp only [List.length_drop, List.length_cons]; omega)
      have e3 := ih ((c :: cs).drop 12) (by simp only [List.length_drop, List.length_cons]; omega)
      have e4 := ih ((c :: cs).drop (utf8.DecodeRune (c :: cs)).2) (by
        have := DecodeRune_size_pos c cs
        simp only [List.length_drop, List.length_cons]; omega)
      rw [unquoteLoop.eq_def (f + 1 + 1), unquoteLoop.eq_def (f + 1)]
      simp only
      cases cs with
      | nil => simp only [e1, e2, e3, e4]
      | cons e cs1 =>
        simp only [List.length_cons] at hs
        have e5 := ih cs1 (by omega)
        simp only [e1, e2, e3, e4, e5]

/-- The step bound of `unquote` never cuts the loop short. -/
theorem unquoteLoop_fuel_enough (s : Bytes) (k : Nat) :
    unquoteLoop (s.length + k) s = unquote s := by
  induction k with
  | zero => rfl
  | succ k ih =>
    rw [← ih, ← Nat.add_assoc]
    exact unquoteLoop_fuel_step (s.length + k) s (by omega)

theorem foldLoop_fuel_step (fuel : Nat) :
    ∀ s : Bytes, s.length ≤ fuel → foldLoop (fuel + 1) s = foldLoop fuel s := by
  induction fuel with
  | zero =>
    intro s hs
    have : s = [] := List.length_eq_zero.mp (by omega)
    subst this
    simp [foldLoop]
  | succ f ih =>
    intro s hs
    cases s with
    | nil => simp [foldLoop]
    | cons c cs =>
      simp only [List.length_cons] at hs
      have e1 := ih cs (by omega)
      have e4 := ih ((c :: cs).drop (utf8.DecodeRune (c :: cs)).2) (by
        have := DecodeRune_size_pos c cs
        simp only [List.length_drop, List.length_cons]; omega)
      rw [foldLoop, foldLoop]
      simp only [e1, e4]

/-- The step bound of `foldName` never cuts the loop short. -/
theorem foldLoop_fuel_enough (s : Bytes) (k : Nat) :
    foldLoop (s.length + k) s = foldName s := by
  induction k with
  | zero => rfl
  | succ k ih =>
    rw [← ih, ← Nat.add_assoc]
    exact foldLoop_fuel_step (s.length + k) s (by omega)

end LoopBoundTheorems

section SourceTests

open storage postgres processing

/-- The repository test `TestUpsertLatestHonorsNewestTimestamp`: after writing the old, the
newer and the older record in this order, the row is that of the newer record (its instant as
microseconds since 2000-01-01). -/
theorem test_UpsertLatestHonorsNewestTimestamp :
    applyUpsert (applyUpsert (applyUpsert emptyTable
        ⟨ascii "1.1.1.1", 80, ascii "HTTP", ⟨1700000000⟩, ascii "old"⟩)
        ⟨ascii "1.1.1.1", 80, ascii "HTTP", ⟨1700003600⟩, ascii "new"⟩)
        ⟨ascii "1.1.1.1", 80, ascii "HTTP", ⟨1699996400⟩, ascii "older"⟩
      (ascii "1.1.1.1", 80, ascii "HTTP") = some (753318800000000, ascii "new") := by
  decide

/-- The handler test `TestHandleMessage_BadResponseString`: acknowledged, no repository call,
one dead-letter publish with reason "normalize_error". -/
theorem test_HandleMessage_BadResponseString :
    HandleMessage (fun _ => none) (some (fun _ _ => none)) ⟨[], badVersionBody, [], none⟩ =
      (true, [Call.Publish ⟨[], badVersionBody, [], none⟩ (ascii "normalize_error")]) := by
  decide

/-- The handler test `TestHandleMessage_MalformedJSON`: acknowledged, no repository call, one
dead-letter publish with reason "parse_error". -/
theorem test_HandleMessage_MalformedJSON :
    HandleMessage (fun _ => none) (some (fun _ _ => none)) ⟨[], malformedBody, [], none⟩ =
      (true, [Call.Publish ⟨[], malformedBody, [], none⟩ (ascii "parse_error")]) := by
  decide

/-- A byte that is not well-formed UTF-8 inside the string literal of a version 2 payload is
replaced by U+FFFD, as `unquoteBytes` does; the round trip of version 2 is about strings of
Unicode characters. -/
theorem ResponseString_v2_ill_formed_byte :
    ScanMessage.ResponseString ⟨ascii "1.1.1.1", 22, ascii "SSH", 1, 2,
      ascii "\x7b\"response_str\":\"" ++ [0xFF] ++ ascii "\"\x7d"⟩ = .ok [0xEF, 0xBF, 0xBD] := by
  decide

/-- A body whose data member is `null` or the empty object decodes: only a body without a
data member is refused for its data. -/
theorem ParseScanMessage_null_data :
    ParseScanMessage (ascii "\x7b\"data\":null,\"data_version\":2\x7d") =
      .ok ⟨[], 0, [], 0, 2, ascii "null"⟩ ∧
    ParseScanMessage (ascii "\x7b\"data\":\x7b\x7d,\"data_version\":2\x7d") =
      .ok ⟨[], 0, [], 0, 2, ascii "\x7b\x7d"⟩ ∧
    ParseScanMessage (ascii "\x7b\"ip\":\"1.1.1.1\",\"data_version\":2\x7d") =
      .error "missing data field" := by
  decide

/-- A second member for `response_bytes_utf8` that is an array is stored into the slice the
first one left: a `null` element keeps the byte already there. -/
theorem ResponseString_v1_null_elements_keep_bytes :
    ScanMessage.ResponseString ⟨ascii "1.1.1.1", 80, ascii "HTTP", 1, 1,
      ascii ("\x7b\"response_bytes_utf8\":\"aGk=\","
        ++ "\"response_bytes_utf8\":[null,null]\x7d")⟩ = .ok (ascii "hi") ∧
    ScanMessage.ResponseString ⟨ascii "1.1.1.1", 80, ascii "HTTP", 1, 1,
      ascii "\x7b\"response_bytes_utf8\":[104,null,105]\x7d"⟩ = .ok [104, 0, 105] := by
  decide

/-- The driver's microsecond count wraps in `int64`: the largest second count is sent as one
second before the Unix epoch, and 2^58 seconds as the epoch itself. -/
theorem encodeTimestamptz_wraps :
    postgres.encodeTimestamptz ⟨9223372036854775807⟩ = -946684801000000 ∧
    postgres.encodeTimestamptz ⟨288230376151711744⟩ = postgres.encodeTimestamptz ⟨0⟩ := by
  decide

end SourceTests
